import Mathlib

/-!
Verification development for the execution-staging engine of
`koopmans_workgraph_mwe`.

The Python sources are shallowly embedded:

* paths are canonical component lists (`List String`), i.e. the result of
  `Path.resolve()` on a filesystem whose relevant entries contain no
  symlinked ancestor directories (the situation the staging code itself
  relies on);
* the filesystem is an association list from such paths to nodes
  (regular file with content, directory, or symlink carrying its stored
  relative target);
* fallible filesystem calls return either the new state or the raised
  error together with the state at the moment of the raise, mirroring
  Python exception semantics where earlier mutations survive a raise.

Embedded functions keep the names of their Python counterparts where
Lean's grammar allows.
-/

namespace KoopmansMWE

/-- A canonical absolute path, as its list of components. -/
abbrev FPath := List String

/-- Length of the longest common leading run of two component lists.
Used to embed `Path.relative_to(..., walk_up=True)` on resolved paths. -/
def lcpLen : FPath → FPath → Nat
  | a :: as, b :: bs => if a = b then lcpLen as bs + 1 else 0
  | _, _ => 0

/-- Embedding of `src.resolve().relative_to(base.resolve(), walk_up=True)`
for canonical absolute `src` and `base`: walk up from `base` to the common
ancestor, then down into `src`. -/
def relativeTo (src base : FPath) : List String :=
  List.replicate (base.length - lcpLen src base) ".." ++ src.drop (lcpLen src base)

/-- Resolution of a stored relative symlink target against the directory
holding the link: each ".." pops a component, every other component is
appended. -/
def resolveRel (base : FPath) (rel : List String) : FPath :=
  rel.foldl (fun acc comp => if comp = ".." then acc.dropLast else acc ++ [comp]) base

theorem lcpLen_le_left : ∀ a b : FPath, lcpLen a b ≤ a.length := by
  intro a
  induction a with
  | nil => intro b; cases b <;> simp [lcpLen]
  | cons x as ih =>
    intro b
    cases b with
    | nil => simp [lcpLen]
    | cons y bs =>
      by_cases h : x = y <;> simp [lcpLen, h]
      exact ih bs

theorem lcpLen_le_right : ∀ a b : FPath, lcpLen a b ≤ b.length := by
  intro a
  induction a with
  | nil => intro b; cases b <;> simp [lcpLen]
  | cons x as ih =>
    intro b
    cases b with
    | nil => simp [lcpLen]
    | cons y bs =>
      by_cases h : x = y <;> simp [lcpLen, h]
      exact ih bs

theorem lcpLen_take : ∀ a b : FPath, a.take (lcpLen a b) = b.take (lcpLen a b) := by
  intro a
  induction a with
  | nil => intro b; cases b <;> simp [lcpLen]
  | cons x as ih =>
    intro b
    cases b with
    | nil => simp [lcpLen]
    | cons y bs =>
      by_cases h : x = y <;> simp [lcpLen, h]
      exact ih bs

/-- The relative offset computed by `relative_to(..., walk_up=True)` only
depends on the paths below any shared root: prepending the same root to both
arguments leaves it unchanged. -/
theorem relativeTo_shift (r a b : FPath) :
    relativeTo (r ++ a) (r ++ b) = relativeTo a b := by
  have hl : ∀ r a b : FPath, lcpLen (r ++ a) (r ++ b) = r.length + lcpLen a b := by
    intro r
    induction r with
    | nil => intro a b; simp
    | cons x rs ih =>
      intro a b
      simp [lcpLen, ih, Nat.add_assoc, Nat.add_comm, Nat.add_left_comm]
  unfold relativeTo
  rw [hl]
  congr 1
  · congr 1
    simp [Nat.add_sub_add_left, Nat.add_comm]
    omega
  · rw [Nat.add_comm, List.drop_append_eq_append_drop]
    simp

theorem dropLast_append_singleton (l : List α) (x : α) : (l ++ [x]).dropLast = l := by
  simp

/-- Iterated `dropLast` driven by a run of ".." components. -/
theorem resolveRel_replicate_up :
    ∀ (k : Nat) (base : FPath), k ≤ base.length →
      resolveRel base (List.replicate k "..") = base.take (base.length - k) := by
  intro k
  induction k with
  | zero => intro base h; simp [resolveRel]
  | succ n ih =>
    intro base h
    have hbase : base ≠ [] := by
      intro hnil; subst hnil; simp at h
    have : resolveRel base (List.replicate (n + 1) "..") =
        resolveRel base.dropLast (List.replicate n "..") := by
      simp [resolveRel, List.replicate_succ]
    rw [this, ih]
    · rw [List.length_dropLast, List.dropLast_eq_take, List.take_take]
      congr 1
      omega
    · rw [List.length_dropLast]
      omega

/-- Appending a run of ordinary (non-"..") components. -/
theorem resolveRel_append_plain :
    ∀ (rel : List String) (base : FPath), ".." ∉ rel →
      resolveRel base rel = base ++ rel := by
  intro rel
  induction rel with
  | nil => intro base _; simp [resolveRel]
  | cons c cs ih =>
    intro base h
    have hc : c ≠ ".." := by
      intro hcc; exact h (by simp [hcc])
    have hcs : ".." ∉ cs := by
      intro hm; exact h (by simp [hm])
    have : resolveRel base (c :: cs) = resolveRel (base ++ [c]) cs := by
      simp [resolveRel, hc, Ne.symm hc]
    rw [this, ih _ hcs]
    simp

theorem resolveRel_split (base : FPath) (k : Nat) (rel : List String)
    (hk : k ≤ base.length) (hrel : ".." ∉ rel) :
    resolveRel base (List.replicate k ".." ++ rel) = base.take (base.length - k) ++ rel := by
  have h1 : resolveRel base (List.replicate k ".." ++ rel) =
      resolveRel (resolveRel base (List.replicate k "..")) rel := by
    simp [resolveRel, List.foldl_append]
  rw [h1, resolveRel_replicate_up k base hk, resolveRel_append_plain rel _ hrel]

/-- Core correctness of the relative offset: resolving
`relativeTo src base` from `root ++ base` lands on `root ++ src`, for any
relocated `root`.  This is why the file-level symlinks stay valid when the
tree is moved as a unit. -/
theorem resolveRel_relativeTo (root src base : FPath) (hsrc : ".." ∉ src) :
    resolveRel (root ++ base) (relativeTo src base) = root ++ src := by
  unfold relativeTo
  have hc : lcpLen src base ≤ base.length := lcpLen_le_right src base
  have hdrop : ".." ∉ src.drop (lcpLen src base) := by
    intro hm
    exact hsrc (List.mem_of_mem_drop hm)
  rw [resolveRel_split _ _ _ (by simp; omega) hdrop]
  have hlen : (root ++ base).length - (base.length - lcpLen src base) =
      root.length + lcpLen src base := by
    simp
    omega
  rw [hlen]
  rw [List.take_append_eq_append_take]
  have h1 : (root.length + lcpLen src base) - root.length = lcpLen src base := by omega
  rw [List.take_of_length_le (by omega), h1]
  rw [List.append_assoc]
  congr 1
  rw [← lcpLen_take src base]
  exact List.take_append_drop _ src

/-! ### Decimal rendering of ordinals

Embedding of Python's decimal formatting, used by
`EngineABC.assign_uid`'s f-string `f"{len(self.uids) + 1:02d}-{name}"`. -/

/-- Fuel-driven helper for the decimal digit string; `n` itself always
suffices as fuel. -/
def decCharsF : Nat → Nat → List Char
  | 0, n => [Nat.digitChar n]
  | fuel + 1, n =>
      if n < 10 then [Nat.digitChar n]
      else decCharsF fuel (n / 10) ++ [Nat.digitChar (n % 10)]

/-- Decimal digit string of a natural number, most significant digit
first (the digits of Python's `str(n)` / `%d`). -/
def decChars (n : Nat) : List Char := decCharsF n n

/-- Python's `f"{n:02d}"`: the decimal rendering zero-padded on the left
to at least two characters. -/
def pad2Chars (n : Nat) : List Char :=
  if n < 10 then '0' :: decChars n else decChars n

theorem decCharsF_small (fuel n : Nat) (h : n < 10) :
    decCharsF fuel n = [Nat.digitChar n] := by
  cases fuel with
  | zero => rfl
  | succ f => simp [decCharsF, h]

theorem decCharsF_succ (f n : Nat) (h : ¬ n < 10) :
    decCharsF (f + 1) n = decCharsF f (n / 10) ++ [Nat.digitChar (n % 10)] := by
  simp [decCharsF, h]

theorem decCharsF_congr : ∀ fuel m, m ≤ fuel → decCharsF fuel m = decChars m := by
  intro fuel
  induction fuel using Nat.strong_induction_on with
  | _ fuel ih =>
    intro m hm
    by_cases hsmall : m < 10
    · rw [decCharsF_small fuel m hsmall]
      unfold decChars
      rw [decCharsF_small m m hsmall]
    · obtain ⟨f, rfl⟩ : ∃ f, fuel = f + 1 := ⟨fuel - 1, by omega⟩
      obtain ⟨g, hg⟩ : ∃ g, m = g + 1 := ⟨m - 1, by omega⟩
      subst hg
      have hdiv := Nat.div_lt_self (n := g + 1) (by omega) (show 1 < 10 by omega)
      rw [decCharsF_succ f _ hsmall]
      rw [ih f (by omega) _ (by omega)]
      show _ = decCharsF (g + 1) (g + 1)
      rw [decCharsF_succ g _ hsmall]
      rw [ih g (by omega) _ (by omega)]

theorem decChars_lt (n : Nat) (h : n < 10) : decChars n = [Nat.digitChar n] :=
  decCharsF_small n n h

theorem decChars_ge (n : Nat) (h : ¬ n < 10) :
    decChars n = decChars (n / 10) ++ [Nat.digitChar (n % 10)] := by
  obtain ⟨g, hg⟩ : ∃ g, n = g + 1 := ⟨n - 1, by omega⟩
  subst hg
  have hdiv := Nat.div_lt_self (n := g + 1) (by omega) (show 1 < 10 by omega)
  show decCharsF (g + 1) (g + 1) = _
  rw [decCharsF_succ g _ h]
  rw [decCharsF_congr g _ (by omega)]

theorem decChars_ne_nil (n : Nat) : decChars n ≠ [] := by
  by_cases h : n < 10
  · simp [decChars_lt n h]
  · simp [decChars_ge n h]

theorem digitChar_inj : ∀ a < 10, ∀ b < 10, Nat.digitChar a = Nat.digitChar b → a = b := by
  decide

theorem digitChar_ne_dash : ∀ a < 10, Nat.digitChar a ≠ Char.ofNat 45 := by
  decide

theorem digitChar_zero_iff : ∀ a < 10, (Nat.digitChar a = '0' ↔ a = 0) := by
  decide

theorem dash_eq : Char.ofNat 45 = '-' := by decide

theorem decChars_all_digits (n : Nat) : ∀ c ∈ decChars n, ∃ a, a < 10 ∧ c = Nat.digitChar a := by
  induction n using Nat.strong_induction_on with
  | _ n ih =>
    by_cases h : n < 10
    · rw [decChars_lt n h]
      simp
      exact ⟨n, h, rfl⟩
    · rw [decChars_ge n h]
      intro c hc
      simp at hc
      rcases hc with hc | hc
      · exact ih (n / 10) (Nat.div_lt_self (by omega) (by omega)) c hc
      · exact ⟨n % 10, Nat.mod_lt _ (by omega), hc⟩

theorem dash_not_mem_decChars (n : Nat) : '-' ∉ decChars n := by
  intro hmem
  obtain ⟨a, ha, hc⟩ := decChars_all_digits n '-' hmem
  exact digitChar_ne_dash a ha (by rw [← hc, dash_eq])

theorem dash_not_mem_pad2Chars (n : Nat) : '-' ∉ pad2Chars n := by
  unfold pad2Chars
  by_cases h : n < 10
  · simp [h]
    exact dash_not_mem_decChars n
  · simp [h]
    exact dash_not_mem_decChars n

/-- The leading digit of a positive number is not '0'. -/
theorem decChars_head_ne_zero (n : Nat) (hn : 0 < n) :
    ∀ c, (decChars n).head? = some c → c ≠ '0' := by
  induction n using Nat.strong_induction_on with
  | _ n ih =>
    intro c hc
    by_cases h : n < 10
    · rw [decChars_lt n h] at hc
      simp at hc
      subst hc
      intro habs
      have := (digitChar_zero_iff n h).mp habs
      omega
    · rw [decChars_ge n h] at hc
      rw [List.head?_append] at hc
      have hne := decChars_ne_nil (n / 10)
      have hs : (decChars (n / 10)).head?.isSome := by
        simpa [List.head?_isSome] using hne
      rw [Option.or_of_isSome hs] at hc
      exact ih (n / 10) (Nat.div_lt_self (by omega) (by omega))
        (Nat.div_pos (by omega) (by omega)) c hc

theorem decChars_inj : ∀ a b : Nat, decChars a = decChars b → a = b := by
  intro a
  induction a using Nat.strong_induction_on with
  | _ a ih =>
    intro b heq
    by_cases ha : a < 10 <;> by_cases hb : b < 10
    · rw [decChars_lt a ha, decChars_lt b hb] at heq
      simp at heq
      exact digitChar_inj a ha b hb heq
    · rw [decChars_lt a ha, decChars_ge b hb] at heq
      exfalso
      have hlen := congrArg List.length heq
      simp only [List.length_append, List.length_cons, List.length_nil] at hlen
      have h0 : (decChars (b / 10)).length = 0 := by omega
      exact decChars_ne_nil _ (List.eq_nil_of_length_eq_zero h0)
    · rw [decChars_ge a ha, decChars_lt b hb] at heq
      exfalso
      have hlen := congrArg List.length heq
      simp only [List.length_append, List.length_cons, List.length_nil] at hlen
      have h0 : (decChars (a / 10)).length = 0 := by omega
      exact decChars_ne_nil _ (List.eq_nil_of_length_eq_zero h0)
    · rw [decChars_ge a ha, decChars_ge b hb] at heq
      have hrev := congrArg List.reverse heq
      simp at hrev
      obtain ⟨hdig, hpre⟩ := hrev
      have hmod : a % 10 = b % 10 :=
        digitChar_inj _ (Nat.mod_lt _ (by omega)) _ (Nat.mod_lt _ (by omega)) hdig
      have hdiv : a / 10 = b / 10 := by
        apply ih (a / 10) (Nat.div_lt_self (by omega) (by omega))
        have := congrArg List.reverse hpre
        simpa using this
      omega

theorem pad2Chars_inj : ∀ a b : Nat, pad2Chars a = pad2Chars b → a = b := by
  intro a b heq
  unfold pad2Chars at heq
  by_cases ha : a < 10 <;> by_cases hb : b < 10 <;> simp [ha, hb] at heq
  · rw [decChars_lt a ha, decChars_lt b hb] at heq
    simp at heq
    exact digitChar_inj a ha b hb heq
  · exfalso
    have hhead := congrArg List.head? heq
    have hne := decChars_ne_nil b
    have hpos : 0 < b := by omega
    rw [decChars_lt a ha] at hhead
    cases hcb : (decChars b).head? with
    | none => exact hne (by simpa [List.head?_eq_none_iff] using hcb)
    | some c =>
      rw [hcb] at hhead
      simp at hhead
      exact decChars_head_ne_zero b hpos c hcb hhead.symm
  · exfalso
    have hhead := congrArg List.head? heq
    have hne := decChars_ne_nil a
    have hpos : 0 < a := by omega
    rw [decChars_lt b hb] at hhead
    cases hca : (decChars a).head? with
    | none => exact hne (by simpa [List.head?_eq_none_iff] using hca)
    | some c =>
      rw [hca] at hhead
      simp at hhead
      exact decChars_head_ne_zero a hpos c hca hhead
  · exact decChars_inj a b heq

/-- Splitting a character list at the first '-' separator is unambiguous
when neither prefix contains '-'. -/
theorem dash_split : ∀ (A B x y : List Char), '-' ∉ A → '-' ∉ B →
    A ++ '-' :: x = B ++ '-' :: y → A = B ∧ x = y := by
  intro A
  induction A with
  | nil =>
    intro B x y _ hB heq
    cases B with
    | nil => simpa using heq
    | cons b bs =>
      simp at heq
      exfalso
      exact hB (by rw [← heq.1]; exact List.mem_cons_self _ _)
  | cons a as ih =>
    intro B x y hA hB heq
    cases B with
    | nil =>
      simp at heq
      exfalso
      exact hA (by simp [heq.1])
    | cons b bs =>
      simp at heq
      obtain ⟨hab, htail⟩ := heq
      have hA' : '-' ∉ as := fun hm => hA (by simp [hm])
      have hB' : '-' ∉ bs := fun hm => hB (by simp [hm])
      obtain ⟨h1, h2⟩ := ih bs x y hA' hB' htail
      exact ⟨by simp [hab, h1], h2⟩

/-! ### Filesystem model

A node is a regular file (with its text content), a directory, or a
symlink storing the relative target it was created with.  The filesystem
is an association list from canonical paths to nodes; lookups take the
most recently inserted binding.  Fallible operations return `FsOut`,
which on error carries the state at the moment the Python exception was
raised (earlier mutations survive a raise). -/

inductive Node where
  | file (content : String)
  | dir
  | symlink (target : List String)
  deriving DecidableEq, Repr

structure FS where
  entries : List (FPath × Node)
  deriving DecidableEq, Repr

inductive FsError where
  | fileNotFound
  | fileExists
  | isADirectory
  | notADirectory
  deriving DecidableEq, Repr

inductive FsOut where
  | ok (fs : FS)
  | err (e : FsError) (fs : FS)
  deriving DecidableEq, Repr

def FsOut.bind (r : FsOut) (f : FS → FsOut) : FsOut :=
  match r with
  | .ok fs => f fs
  | .err e fs => .err e fs

def FS.findNode (fs : FS) (p : FPath) : Option Node :=
  fs.entries.lookup p

/-- `Path(p).exists() or Path(p).is_symlink()` of the local backends: in
this model (canonical paths, no symlinked ancestors) that is exactly
"some node is recorded at `p`", dangling symlinks included. -/
def file_exists (fs : FS) (p : FPath) : Bool :=
  (fs.findNode p).isSome

/-- `Path(p).is_dir()`. -/
def is_dir (fs : FS) (p : FPath) : Bool :=
  fs.findNode p = some .dir

/-- Remove the binding at exactly `p`. -/
def FS.eraseExact (fs : FS) (p : FPath) : FS :=
  ⟨fs.entries.filter (fun e => ¬ e.1 = p)⟩

/-- Add a binding at `p` (shadowing any previous one). -/
def FS.insert (fs : FS) (p : FPath) (n : Node) : FS :=
  ⟨(p, n) :: fs.entries⟩

/-- `shutil.rmtree(p)`: drop `p` and every path below it. -/
def rmtree (fs : FS) (p : FPath) : FS :=
  ⟨fs.entries.filter (fun e => ¬ p.isPrefixOf e.1)⟩

/-- `Path(p).unlink()`: remove a non-directory node; raises
`FileNotFoundError` when absent and `IsADirectoryError` on a directory. -/
def unlink (fs : FS) (p : FPath) : FsOut :=
  match fs.findNode p with
  | none => .err .fileNotFound fs
  | some .dir => .err .isADirectory fs
  | some _ => .ok (fs.eraseExact p)

/-- `engines.localhost.delete_file` / the os helper `delete_file`:
recursive removal for directories, unlink otherwise. -/
def delete_file (fs : FS) (p : FPath) : FsOut :=
  if is_dir fs p then .ok (rmtree fs p) else unlink fs p

/-- Proper ancestors of a path, shortest first (`p.take 1 … p.dropLast`),
followed by `p` itself. -/
def ancestorsOf (p : FPath) : List FPath :=
  (List.range p.length).map (fun i => p.take (i + 1))

/-- Create every missing path of `ps` as a directory. -/
def addDirs (fs : FS) (ps : List FPath) : FS :=
  ps.foldl (fun acc q => if file_exists acc q then acc else acc.insert q .dir) fs

/-- `Path(p).mkdir(parents=…, exist_ok=…)` with Python's error cases:
`FileExistsError` on an existing path (unless `exist_ok` and it is a
directory), `FileNotFoundError` for a missing parent without `parents`,
`NotADirectoryError` when a needed ancestor is not a directory. -/
def mkdir (fs : FS) (p : FPath) (parents exist_ok : Bool) : FsOut :=
  if file_exists fs p then
    if exist_ok ∧ is_dir fs p then .ok fs else .err .fileExists fs
  else if parents then
    if (ancestorsOf p).all (fun q => ¬ file_exists fs q ∨ is_dir fs q) then
      .ok (addDirs fs (ancestorsOf p))
    else .err .notADirectory fs
  else
    if p.dropLast = [] ∨ is_dir fs p.dropLast then .ok (fs.insert p .dir)
    else if file_exists fs p.dropLast then .err .notADirectory fs
    else .err .fileNotFound fs

/-- `open(p, 'w').write(content)`: requires the parent directory; creates
or truncates the file at `p`. -/
def write_to_file (fs : FS) (content : String) (p : FPath) : FsOut :=
  if is_dir fs p then .err .isADirectory fs
  else if p.dropLast = [] ∨ is_dir fs p.dropLast then
    .ok ((fs.eraseExact p).insert p (.file content))
  else .err .fileNotFound fs

/-- `dest.symlink_to(target)`: raises `FileExistsError` when anything is
already at `dest`; otherwise records the link without ever inspecting the
target (dangling links are created silently). -/
def symlink_to (fs : FS) (dest : FPath) (target : List String) : FsOut :=
  if file_exists fs dest then .err .fileExists fs
  else .ok (fs.insert dest (.symlink target))

/-- `shutil.copy(src, dest)` for a regular-file `src`: silently
overwrites an existing destination file, copies into `dest` when `dest`
is a directory, raises `FileNotFoundError` when `src` is absent. -/
def shutil_copy (fs : FS) (src dest : FPath) : FsOut :=
  match fs.findNode src with
  | some (.file c) =>
      if is_dir fs dest then
        match src.getLast? with
        | some nm => write_to_file fs c (dest ++ [nm])
        | none => .err .fileNotFound fs
      else write_to_file fs c dest
  | some .dir => .err .isADirectory fs
  | _ => .err .fileNotFound fs

/-- `shutil.copytree(src, dest)`: raises `FileExistsError` when the
destination exists, before any mutation; otherwise replicates the whole
subtree of `src` at `dest`. -/
def copytree (fs : FS) (src dest : FPath) : FsOut :=
  if file_exists fs dest then .err .fileExists fs
  else if ¬ is_dir fs src then .err .notADirectory fs
  else if ¬ (dest.dropLast = [] ∨ is_dir fs dest.dropLast) then .err .fileNotFound fs
  else
    .ok ⟨(fs.entries.filterMap (fun e =>
      if src.isPrefixOf e.1 then some (dest ++ e.1.drop src.length, e.2) else none))
      ++ fs.entries⟩

/-- `src.rglob('*')` restricted to the non-directory children the
recursive linker acts on, as paths relative to `src` (snapshot of the
generator, valid because the walk only mutates outside `src`). -/
def rglobFiles (fs : FS) (src : FPath) : List FPath :=
  fs.entries.filterMap (fun e =>
    if src.isPrefixOf e.1 ∧ ¬ e.1 = src ∧ ¬ e.2 = .dir then
      some (e.1.drop src.length)
    else none)

/-! ### Backend capabilities (`engines/localhost.py`, `os/local.py`) -/

/-- `engines.localhost.link_file` (also `AseEngine._link_file`): computes
the relative offset from the destination's parent, then symlinks `dest`
itself — the `recursive` flag is accepted but never consulted. -/
def localhost_link_file (fs : FS) (src dest : FPath) (recursive : Bool) : FsOut :=
  let _ := recursive
  let relative_path := relativeTo src dest.dropLast
  if is_dir fs src then symlink_to fs dest relative_path
  else symlink_to fs dest relative_path

/-- `engines.localhost.copy_file` (also the os helper `copy_file`):
`shutil.copytree` for directories, `shutil.copy` otherwise. -/
def localhost_copy_file (fs : FS) (src dest : FPath) : FsOut :=
  if is_dir fs src then copytree fs src dest else shutil_copy fs src dest

/-- `os.local.link_path` with `recursive=False`: one relative symlink at
`dest`. -/
def link_path_single (fs : FS) (src dest : FPath) : FsOut :=
  symlink_to fs dest (relativeTo src dest.dropLast)

/-- One iteration of `os.local.link_path`'s recursive walk: ensure the
destination parent directory, then link the single file. -/
def link_path_step (src dest : FPath) (out : FsOut) (child : FPath) : FsOut :=
  out.bind (fun fs =>
    (if ¬ file_exists fs (dest ++ child).dropLast then
        mkdir fs (dest ++ child).dropLast true true
      else .ok fs).bind
      (fun fs2 => link_path_single fs2 (src ++ child) (dest ++ child)))

/-- `os.local.link_path`: with `recursive=True` walk the non-directory
descendants of `src` and link each one individually; otherwise symlink
`dest` itself. -/
def link_path (fs : FS) (src dest : FPath) (recursive : Bool) : FsOut :=
  if recursive then (rglobFiles fs src).foldl (link_path_step src dest) (.ok fs)
  else link_path_single fs src dest

/-- `EngineABC.copy_file`: delete an existing destination when
`overwrite`, then delegate to the backend `_copy_file`. -/
def engine_copy_file (fs : FS) (src dest : FPath) (overwrite : Bool) : FsOut :=
  (if overwrite ∧ file_exists fs dest then delete_file fs dest else .ok fs).bind
    (fun fs1 => localhost_copy_file fs1 src dest)

/-- `EngineABC.link_file`: delete an existing destination when
`overwrite`, then delegate to the backend `_link_file`. -/
def engine_link_file (fs : FS) (src dest : FPath) (recursive overwrite : Bool) : FsOut :=
  (if overwrite ∧ file_exists fs dest then delete_file fs dest else .ok fs).bind
    (fun fs1 => localhost_link_file fs1 src dest recursive)

/-! ### Engine task lifecycle (`engines/engine.py`) -/

structure EngineSt where
  uids : List String
  deriving DecidableEq, Repr

/-- `EngineABC.assign_uid`: `uid = f"{len(self.uids) + 1:02d}-{name}"`,
appended to the ledger. -/
def assign_uid (eng : EngineSt) (name : String) : String × EngineSt :=
  let uid := String.mk (pad2Chars (eng.uids.length + 1)) ++ "-" ++ name
  (uid, ⟨eng.uids ++ [uid]⟩)

inductive FileKind where
  | singleFile
  | directory
  deriving DecidableEq, Repr

/-- A keyword argument that is structurally a link dict
(`{'kind': 'link', 'src': …, 'dest': …, 'symlink': …, 'overwrite': …}`). -/
structure LinkInput where
  srcKind : FileKind
  src : FPath
  dest : List String
  symlink : Bool
  overwrite : Bool
  deriving DecidableEq, Repr

inductive TaskInput where
  | plain
  | link (l : LinkInput)
  deriving DecidableEq, Repr

/-- The staging loop of `EngineABC._pre_run`: every link-shaped input is
materialised at `uid/<dest>` via `link_file` or `copy_file` — note the
call passes `overwrite` but never `recursive`. -/
def stage_inputs (fs : FS) (uid : String) (inputs : List (String × TaskInput)) : FsOut :=
  inputs.foldl (fun out kv =>
    out.bind (fun fs1 =>
      match kv.2 with
      | .plain => .ok fs1
      | .link l =>
          let dest := uid :: l.dest
          if l.symlink then engine_link_file fs1 l.src dest false l.overwrite
          else engine_copy_file fs1 l.src dest l.overwrite)) (.ok fs)

/-- `EngineABC._pre_run` in source order: assign the uid; if an input
model was given, validate and dump `uid/inputs.json`; then reset the
working directory (recursive delete + mkdir); then stage link-shaped
inputs.  `inputsJson` is the serialized validated snapshot when an input
model is supplied. -/
def pre_run (eng : EngineSt) (fs : FS) (name : String)
    (inputs : List (String × TaskInput)) (inputsJson : Option String) :
    String × EngineSt × FsOut :=
  let p := assign_uid eng name
  let uid := p.1
  let afterDump : FsOut :=
    match inputsJson with
    | some s => write_to_file fs s [uid, "inputs.json"]
    | none => .ok fs
  let afterReset := afterDump.bind (fun fs1 =>
    if file_exists fs1 [uid] then delete_file fs1 [uid] else .ok fs1)
  let afterMkdir := afterReset.bind (fun fs2 => mkdir fs2 [uid] true true)
  let afterStage := afterMkdir.bind (fun fs3 => stage_inputs fs3 uid inputs)
  (uid, p.2, afterStage)

/-- A Python function as the engine sees it: its `__name__` and its code
object's variable names, split into declared parameters and other local
variables (`__code__.co_varnames` lists both, parameters first). -/
structure PyFunc where
  name : String
  params : List String
  locals : List String
  deriving DecidableEq, Repr

/-- `func.__code__.co_varnames`. -/
def co_varnames (f : PyFunc) : List String := f.params ++ f.locals

inductive PyVal where
  | arg (v : TaskInput)
  | uidVal (uid : String)
  | commandsVal
  | linkFileCap
  deriving DecidableEq, Repr

/-- Python dict update `kwargs[k] = v`. -/
def upsert (kwargs : List (String × PyVal)) (k : String) (v : PyVal) :
    List (String × PyVal) :=
  kwargs.filter (fun p => ¬ p.1 = k) ++ [(k, v)]

/-- The ambient-injection block of `run_task`: `uid`, `commands` and the
engine's bound `link_file` are each added iff their name occurs in
`func.__code__.co_varnames`. -/
def inject_ambient (f : PyFunc) (uid : String) (kwargs : List (String × PyVal)) :
    List (String × PyVal) :=
  let k1 := if "uid" ∈ co_varnames f then upsert kwargs "uid" (.uidVal uid) else kwargs
  let k2 := if "commands" ∈ co_varnames f then upsert k1 "commands" .commandsVal else k1
  if "link_file" ∈ co_varnames f then upsert k2 "link_file" .linkFileCap else k2

/-- Outcome of the wrapped function: a returned output mapping
(serialized by the output model) or a raised domain exception; either
way the function may have mutated the filesystem. -/
inductive FuncResult where
  | ok (outputsJson : String) (fs : FS)
  | raise (msg : String) (fs : FS)

inductive RunOutcome where
  | ok (eng : EngineSt) (fs : FS) (outputsJson : String)
  | engErr (e : FsError) (eng : EngineSt) (fs : FS)
  | funcExc (msg : String) (eng : EngineSt) (fs : FS)
  deriving DecidableEq, Repr

def RunOutcome.engine : RunOutcome → EngineSt
  | .ok eng _ _ => eng
  | .engErr _ eng _ => eng
  | .funcExc _ eng _ => eng

def RunOutcome.fsOf : RunOutcome → FS
  | .ok _ fs _ => fs
  | .engErr _ _ fs => fs
  | .funcExc _ _ fs => fs

/-- `EngineABC.task`'s `run_task` closure: pop `metadata`, derive the
task name (defaulting to `func.__name__`), run `_pre_run`, inject
ambient parameters, call the function, then `_post_run` (dump
`uid/outputs.json` when an output model is supplied).  Engine-level
filesystem errors and domain exceptions both propagate unchanged. -/
def run_task (eng : EngineSt) (fs : FS) (f : PyFunc)
    (behavior : List (String × PyVal) → FS → FuncResult)
    (metadata : Option String)
    (kwargs : List (String × TaskInput)) (inputsJson : Option String)
    (outputsModel : Bool) : RunOutcome :=
  match pre_run eng fs (metadata.getD f.name) kwargs inputsJson with
  | (_, eng', .err e fs1) => .engErr e eng' fs1
  | (uid, eng', .ok fs1) =>
    match behavior (inject_ambient f uid
        (kwargs.map (fun kv => (kv.1, PyVal.arg kv.2)))) fs1 with
    | .raise msg fs2 => .funcExc msg eng' fs2
    | .ok outsJson fs2 =>
        if outputsModel then
          match write_to_file fs2 outsJson [uid, "outputs.json"] with
          | .err e fs3 => .engErr e eng' fs3
          | .ok fs3 => .ok eng' fs3 outsJson
        else .ok eng' fs2 outsJson

/-! ### Output-schema serialization (for the round-trip claim)

Modelled from the spec: pydantic's `model_dump_json(indent=2,
exclude_none=True)` and `model_validate` are third-party code not under
`src/`; per §6/§8 of the spec, dumping omits null-valued fields and
loading through the same schema restores the mapping.  A validated model
is its schema-ordered field list, each field either null (`none`) or a
JSON-serializable value; the pretty-printed rendering is presentation
only and is not modelled. -/

abbrev PModel := List (String × Option String)

/-- Modelled from the spec: `model_dump_json(..., exclude_none=True)` as
the key/value pairs of the emitted JSON object — null fields omitted. -/
def model_dump_exclude_none (m : PModel) : List (String × String) :=
  m.filterMap (fun kv => kv.2.map (fun v => (kv.1, v)))

/-- Modelled from the spec: `model_validate` of a JSON object through a
schema — every schema field takes the parsed value when present and null
otherwise. -/
def model_validate_json (schema : List String) (j : List (String × String)) : PModel :=
  schema.map (fun k => (k, j.lookup k))

/-! ### Basic lookup lemmas for the filesystem model -/

theorem lookup_filter_key (g : FPath → Bool) :
    ∀ (l : List (FPath × Node)) (q : FPath),
      (l.filter (fun e => g e.1)).lookup q = if g q then l.lookup q else none := by
  intro l
  induction l with
  | nil => intro q; simp [List.lookup]
  | cons e rest ih =>
    intro q
    by_cases hg : g e.1
    · rw [List.filter_cons_of_pos (by simpa using hg)]
      by_cases hq : q = e.1
      · subst hq
        simp [List.lookup, hg]
      · have hbeq : (q == e.1) = false := by simpa using hq
        simp only [List.lookup, hbeq]
        exact ih q
    · rw [List.filter_cons_of_neg (by simpa using hg)]
      by_cases hq : q = e.1
      · subst hq
        simp [List.lookup, hg, ih]
      · have hbeq : (q == e.1) = false := by simpa using hq
        simp only [List.lookup, hbeq]
        exact ih q

theorem findNode_insert (fs : FS) (p : FPath) (n : Node) (q : FPath) :
    (fs.insert p n).findNode q = if q = p then some n else fs.findNode q := by
  by_cases hq : q = p
  · subst hq
    simp [FS.insert, FS.findNode, List.lookup]
  · have hbeq : (q == p) = false := by simpa using hq
    simp [FS.insert, FS.findNode, List.lookup, hbeq, hq]

theorem findNode_eraseExact (fs : FS) (p q : FPath) :
    (fs.eraseExact p).findNode q = if q = p then none else fs.findNode q := by
  unfold FS.eraseExact FS.findNode
  have := lookup_filter_key (fun k => decide ¬ k = p) fs.entries q
  simp only at this
  rw [show (fs.entries.filter fun e => decide ¬ e.1 = p) =
      (fs.entries.filter fun e => (fun k => decide ¬ k = p) e.1) from rfl, this]
  by_cases hq : q = p <;> simp [hq]

theorem findNode_rmtree (fs : FS) (p q : FPath) :
    (rmtree fs p).findNode q = if p.isPrefixOf q then none else fs.findNode q := by
  unfold rmtree FS.findNode
  have h := lookup_filter_key (fun k => decide ¬ p.isPrefixOf k = true) fs.entries q
  simp only at h
  rw [show List.lookup q
        { entries := fs.entries.filter fun e => decide ¬ p.isPrefixOf e.1 = true : FS }.entries =
      List.lookup q (fs.entries.filter
        (fun e => (fun k => decide ¬ p.isPrefixOf k = true) e.1)) from rfl, h]
  by_cases hq : p.isPrefixOf q <;> simp [hq]

/-- Nothing new ever appears through `delete_file`. -/
theorem delete_file_find (fs : FS) (p : FPath) :
    ∀ fs', delete_file fs p = .ok fs' →
      ∀ q, fs'.findNode q = fs.findNode q ∨ fs'.findNode q = none := by
  intro fs' h q
  unfold delete_file at h
  by_cases hd : is_dir fs p
  · simp [hd] at h
    subst h
    rw [findNode_rmtree]
    by_cases hp : p.isPrefixOf q <;> simp [hp]
  · simp [hd] at h
    unfold unlink at h
    cases hf : fs.findNode p with
    | none => rw [hf] at h; cases h
    | some n =>
      cases n with
      | dir => rw [hf] at h; cases h
      | file c =>
        rw [hf] at h
        cases h
        rw [findNode_eraseExact]
        by_cases hq : q = p <;> simp [hq]
      | symlink t =>
        rw [hf] at h
        cases h
        rw [findNode_eraseExact]
        by_cases hq : q = p <;> simp [hq]

/-- Deleting an existing node succeeds and removes it. -/
theorem delete_file_of_present (fs : FS) (p : FPath) (h : file_exists fs p) :
    ∃ fs', delete_file fs p = .ok fs' ∧ file_exists fs' p = false := by
  unfold delete_file
  by_cases hd : is_dir fs p
  · refine ⟨rmtree fs p, by simp [hd], ?_⟩
    unfold file_exists
    rw [findNode_rmtree]
    simp [ List.isPrefixOf_iff_prefix]
  · unfold file_exists at h
    cases hf : fs.findNode p with
    | none => rw [hf] at h; simp at h
    | some n =>
      cases n with
      | dir => exact absurd (by unfold is_dir; rw [hf]; simp) hd
      | file c =>
        refine ⟨fs.eraseExact p, by simp [hd, unlink, hf], ?_⟩
        unfold file_exists
        rw [findNode_eraseExact]
        simp
      | symlink t =>
        refine ⟨fs.eraseExact p, by simp [hd, unlink, hf], ?_⟩
        unfold file_exists
        rw [findNode_eraseExact]
        simp

/-- Characterisation of `addDirs`: missing listed paths become
directories, everything else is untouched. -/
theorem addDirs_find : ∀ (ps : List FPath) (fs : FS) (q : FPath),
    (addDirs fs ps).findNode q =
      if q ∈ ps ∧ fs.findNode q = none then some .dir else fs.findNode q := by
  intro ps
  induction ps with
  | nil => intro fs q; simp [addDirs]
  | cons p rest ih =>
    intro fs q
    have hstep : addDirs fs (p :: rest) =
        addDirs (if file_exists fs p then fs else fs.insert p .dir) rest := by
      unfold addDirs
      simp [List.foldl_cons]
    rw [hstep, ih]
    by_cases hp : file_exists fs p
    · simp only [if_pos hp]
      by_cases hnone : fs.findNode q = none
      · by_cases hqr : q ∈ rest
        · rw [if_pos ⟨hqr, hnone⟩, if_pos ⟨List.mem_cons_of_mem _ hqr, hnone⟩]
        · rw [if_neg (fun h => hqr h.1), if_neg]
          rintro ⟨hm, _⟩
          rcases List.mem_cons.mp hm with h | h
          · subst h
            unfold file_exists at hp
            rw [hnone] at hp
            simp at hp
          · exact hqr h
      · rw [if_neg (fun h => hnone h.2), if_neg (fun h => hnone h.2)]
    · simp only [if_neg hp]
      have hpnone : fs.findNode p = none := by
        unfold file_exists at hp
        simpa using hp
      by_cases hqp : q = p
      · subst hqp
        simp [findNode_insert, hpnone]
      · simp only [findNode_insert, if_neg hqp]
        by_cases hq : q ∈ rest ∧ fs.findNode q = none
        · rw [if_pos hq, if_pos ⟨List.mem_cons_of_mem _ hq.1, hq.2⟩]
        · rw [if_neg hq, if_neg]
          rintro ⟨hm, hnone⟩
          rcases List.mem_cons.mp hm with h | h
          · exact hqp h
          · exact hq ⟨h, hnone⟩

/-- Membership in `ancestorsOf`: exactly the nonempty leading runs. -/
theorem mem_ancestorsOf (p q : FPath) : q ∈ ancestorsOf p ↔ (q <+: p ∧ q ≠ []) := by
  unfold ancestorsOf
  simp only [List.mem_map, List.mem_range]
  constructor
  · rintro ⟨i, hi, rfl⟩
    constructor
    · exact List.take_prefix _ _
    · have : (p.take (i + 1)).length = i + 1 := by
        rw [List.length_take]
        omega
      intro habs
      rw [habs] at this
      simp at this
  · rintro ⟨hpre, hne⟩
    have hle := hpre.length_le
    have hlen : 1 ≤ q.length := by
      cases q with
      | nil => exact absurd rfl hne
      | cons a as => simp
    refine ⟨q.length - 1, by omega, ?_⟩
    have h1 : q.length - 1 + 1 = q.length := by omega
    rw [h1]
    exact ( List.prefix_iff_eq_take.mp hpre).symm

/-! ### The recursive walk of `os.local.link_path` -/

/-- Invariant of the recursive walk: over a prefix-free family of
nonempty leaf paths, absent at the destination and with every needed
destination ancestor absent-or-directory, the fold succeeds, plants
exactly one relative file-level symlink per leaf, and otherwise only
creates directories. -/
theorem link_rec_aux :
    ∀ (cs : List FPath) (fs : FS) (src dest : FPath),
      (∀ c ∈ cs, c ≠ []) →
      cs.Pairwise (fun a b => ¬ a <+: b ∧ ¬ b <+: a) →
      (∀ c ∈ cs, fs.findNode (dest ++ c) = none) →
      (∀ c ∈ cs, ∀ q, q <+: dest ++ c.dropLast → q ≠ [] →
          fs.findNode q = none ∨ fs.findNode q = some .dir) →
      ∃ fs', cs.foldl (link_path_step src dest) (.ok fs) = .ok fs' ∧
        (∀ c ∈ cs, fs'.findNode (dest ++ c) =
            some (.symlink (relativeTo (src ++ c) ((dest ++ c).dropLast)))) ∧
        (∀ q, fs'.findNode q ≠ fs.findNode q →
            fs.findNode q = none ∧
              (fs'.findNode q = some .dir ∨ ∃ c ∈ cs, q = dest ++ c)) := by
  intro cs
  induction cs with
  | nil =>
    intro fs src dest _ _ _ _
    exact ⟨fs, rfl, by simp, fun q h => absurd rfl h⟩
  | cons c rest ih =>
    intro fs src dest h1 h2 h3 h4
    have hcne : c ≠ [] := h1 c (List.mem_cons_self _ _)
    have hparent : (dest ++ c).dropLast = dest ++ c.dropLast :=
      List.dropLast_append_of_ne_nil dest hcne
    obtain ⟨hhead, htail⟩ := List.pairwise_cons.mp h2
    -- Phase 1: the parent-directory branch of the step.
    obtain ⟨fs1, hstep1, hΔ1⟩ :
        ∃ fs1,
          (if ¬ file_exists fs (dest ++ c).dropLast then
              mkdir fs (dest ++ c).dropLast true true
            else .ok fs) = .ok fs1 ∧
          ∀ q, fs1.findNode q ≠ fs.findNode q →
            fs.findNode q = none ∧ fs1.findNode q = some .dir ∧
              (q <+: dest ++ c.dropLast ∧ q ≠ []) := by
      by_cases hpp : file_exists fs (dest ++ c).dropLast
      · exact ⟨fs, by simp [hpp], fun q h => absurd rfl h⟩
      · refine ⟨addDirs fs (ancestorsOf ((dest ++ c).dropLast)), ?_, ?_⟩
        · rw [if_pos (by simpa using hpp)]
          unfold mkdir
          rw [if_neg (by simpa using hpp)]
          rw [if_pos rfl]
          split
          · rfl
          · rename_i hfail
            exfalso
            apply hfail
            rw [List.all_eq_true]
            intro q hqmem
            rw [hparent] at hqmem
            obtain ⟨hqpre, hqne⟩ := (mem_ancestorsOf _ _).mp hqmem
            rcases h4 c (List.mem_cons_self _ _) q hqpre hqne with hn | hd
            · simp [file_exists, hn]
            · simp [file_exists, is_dir, hd]
        · intro q hq
          rw [addDirs_find] at hq
          by_cases hmem : q ∈ ancestorsOf ((dest ++ c).dropLast) ∧ fs.findNode q = none
          · refine ⟨hmem.2, ?_, ?_⟩
            · rw [addDirs_find, if_pos hmem]
            · rw [hparent] at hmem
              exact (mem_ancestorsOf _ _).mp hmem.1
          · rw [if_neg hmem] at hq
            exact absurd rfl hq
    -- Phase 2: the symlink for this leaf.
    have hfs1cd : fs1.findNode (dest ++ c) = none := by
      by_cases hch : fs1.findNode (dest ++ c) = fs.findNode (dest ++ c)
      · rw [hch]
        exact h3 c (List.mem_cons_self _ _)
      · obtain ⟨_, _, hpre, _⟩ := hΔ1 _ hch
        exfalso
        have hlen := hpre.length_le
        simp [List.length_dropLast] at hlen
        have : c.length ≤ c.dropLast.length := by
          simp at hlen ⊢
          omega
        rw [List.length_dropLast] at this
        have : c.length = 0 := by omega
        exact hcne (List.eq_nil_of_length_eq_zero this)
    have hlink : link_path_single fs1 (src ++ c) (dest ++ c) =
        .ok (fs1.insert (dest ++ c)
          (.symlink (relativeTo (src ++ c) ((dest ++ c).dropLast)))) := by
      unfold link_path_single symlink_to
      rw [if_neg (by simp [file_exists, hfs1cd])]
    set fs2 := fs1.insert (dest ++ c)
      (.symlink (relativeTo (src ++ c) ((dest ++ c).dropLast))) with hfs2def
    have hfs2 : ∀ q, fs2.findNode q =
        if q = dest ++ c then
          some (.symlink (relativeTo (src ++ c) ((dest ++ c).dropLast)))
        else fs1.findNode q := by
      intro q
      rw [hfs2def, findNode_insert]
    -- fs2 versus fs, for reuse below.
    have hΔ2 : ∀ q, fs2.findNode q ≠ fs.findNode q →
        fs.findNode q = none ∧
          ((q = dest ++ c ∧ fs2.findNode q =
              some (.symlink (relativeTo (src ++ c) ((dest ++ c).dropLast)))) ∨
            (fs2.findNode q = some .dir ∧ q <+: dest ++ c.dropLast ∧ q ≠ [])) := by
      intro q hq
      rw [hfs2 q] at hq ⊢
      by_cases hqcd : q = dest ++ c
      · rw [if_pos hqcd] at hq ⊢
        subst hqcd
        exact ⟨h3 c (List.mem_cons_self _ _), Or.inl ⟨rfl, rfl⟩⟩
      · rw [if_neg hqcd] at hq ⊢
        obtain ⟨hnone, hdir, hpre⟩ := hΔ1 q hq
        exact ⟨hnone, Or.inr ⟨hdir, hpre⟩⟩
    -- Hypotheses of the induction for the remaining leaves.
    have h3' : ∀ c' ∈ rest, fs2.findNode (dest ++ c') = none := by
      intro c' hc'
      have hne : ¬ dest ++ c' = dest ++ c := by
        intro habs
        have : c' = c := List.append_cancel_left habs
        subst this
        exact (hhead c' hc').1 ( List.prefix_refl _)
      rw [hfs2, if_neg hne]
      by_cases hch : fs1.findNode (dest ++ c') = fs.findNode (dest ++ c')
      · rw [hch]
        exact h3 c' (List.mem_cons_of_mem _ hc')
      · obtain ⟨_, _, hpre, _⟩ := hΔ1 _ hch
        exfalso
        have : c' <+: c.dropLast := ( List.prefix_append_right_inj dest).mp hpre
        exact (hhead c' hc').2 (this.trans ( List.dropLast_prefix c))
    have h4' : ∀ c' ∈ rest, ∀ q, q <+: dest ++ c'.dropLast → q ≠ [] →
        fs2.findNode q = none ∨ fs2.findNode q = some .dir := by
      intro c' hc' q hqpre hqne
      have hqcd : ¬ q = dest ++ c := by
        intro habs
        subst habs
        have h5 : c <+: c'.dropLast := ( List.prefix_append_right_inj dest).mp hqpre
        exact (hhead c' hc').1 (h5.trans ( List.dropLast_prefix c'))
      rw [hfs2, if_neg hqcd]
      by_cases hch : fs1.findNode q = fs.findNode q
      · rw [hch]
        exact h4 c' (List.mem_cons_of_mem _ hc') q hqpre hqne
      · obtain ⟨_, hdir, _⟩ := hΔ1 q hch
        exact Or.inr hdir
    obtain ⟨fs', hfold, hsyms, hΔ'⟩ :=
      ih fs2 src dest (fun c' hc' => h1 c' (List.mem_cons_of_mem _ hc')) htail h3' h4'
    -- Assemble.
    refine ⟨fs', ?_, ?_, ?_⟩
    · rw [List.foldl_cons]
      have hstep : link_path_step src dest (.ok fs) c = .ok fs2 := by
        unfold link_path_step
        show ((if ¬ file_exists fs (dest ++ c).dropLast then
            mkdir fs (dest ++ c).dropLast true true
          else .ok fs).bind
            (fun fsx => link_path_single fsx (src ++ c) (dest ++ c))) = .ok fs2
        rw [hstep1]
        show link_path_single fs1 (src ++ c) (dest ++ c) = .ok fs2
        rw [hlink, hfs2def]
      rw [hstep]
      exact hfold
    · intro c' hc'
      rcases List.mem_cons.mp hc' with hc' | hc'
      · subst hc'
        by_cases hch : fs'.findNode (dest ++ c') = fs2.findNode (dest ++ c')
        · rw [hch, hfs2, if_pos rfl]
        · obtain ⟨hnone, _⟩ := hΔ' _ hch
          rw [hfs2, if_pos rfl] at hnone
          cases hnone
      · exact hsyms c' hc'
    · intro q hq
      by_cases hch : fs'.findNode q = fs2.findNode q
      · rw [hch] at hq ⊢
        obtain ⟨hnone, hcase⟩ := hΔ2 q hq
        refine ⟨hnone, ?_⟩
        rcases hcase with ⟨hqcd, hval⟩ | ⟨hdir, _⟩
        · exact Or.inr ⟨c, List.mem_cons_self _ _, hqcd⟩
        · exact Or.inl hdir
      · obtain ⟨hnone2, hcase⟩ := hΔ' q hch
        have hnone : fs.findNode q = none := by
          by_cases hch2 : fs2.findNode q = fs.findNode q
          · rw [← hch2]
            exact hnone2
          · obtain ⟨hn, _⟩ := hΔ2 q hch2
            exact hn
        refine ⟨hnone, ?_⟩
        rcases hcase with hdir | ⟨c', hc', hq'⟩
        · exact Or.inl hdir
        · exact Or.inr ⟨c', List.mem_cons_of_mem _ hc', hq'⟩

theorem lookup_eq_none_of_keys :
    ∀ (l : List (FPath × Node)) (q : FPath), (∀ e ∈ l, ¬ e.1 = q) → l.lookup q = none := by
  intro l
  induction l with
  | nil => intro q _; rfl
  | cons e rest ih =>
    intro q h
    have hne : ¬ e.1 = q := h e (List.mem_cons_self _ _)
    have hbeq : (q == e.1) = false := by
      simp
      exact fun habs => hne habs.symm
    simp only [List.lookup, hbeq]
    exact ih q (fun e' he' => h e' (List.mem_cons_of_mem _ he'))

theorem findNode_eq_none_of_keys (fs : FS) (q : FPath)
    (h : ∀ e ∈ fs.entries, ¬ e.1 = q) : fs.findNode q = none :=
  lookup_eq_none_of_keys fs.entries q h

/-- Every leaf path reported by `rglob` is nonempty. -/
theorem rglob_ne_nil (fs : FS) (src : FPath) : ∀ c ∈ rglobFiles fs src, c ≠ [] := by
  intro c hc
  unfold rglobFiles at hc
  rw [List.mem_filterMap] at hc
  obtain ⟨e, _, he⟩ := hc
  by_cases hcond : src.isPrefixOf e.1 ∧ ¬ e.1 = src ∧ ¬ e.2 = .dir
  · rw [if_pos hcond] at he
    obtain ⟨hpre, hnesrc, _⟩ := hcond
    have hpre' : src <+: e.1 := List.isPrefixOf_iff_prefix.mp hpre
    have hlen : src.length < e.1.length := by
      rcases Nat.lt_or_ge src.length e.1.length with h | h
      · exact h
      · exact absurd (hpre'.eq_of_length_le h).symm hnesrc
    cases he
    intro habs
    have := congrArg List.length habs
    simp at this
    omega
  · rw [if_neg hcond] at he
    cases he

/-- C1 (amended): with `recursive=True` over a directory, the os helper
`link_path` walks every leaf file under the source, creates destination
parent directories as needed, creates exactly one file-level relative
symlink per leaf (directories, the destination node included, are never
symlinked — every other node it creates is a directory), and each
symlink's stored relative target resolves to the original file from the
original root and from any relocated root.  (The engine backend used for
staging behaves differently; see the counterexample.) -/
theorem C1_link_path_recursive (fs : FS) (root s d : FPath)
    (hpf : (rglobFiles fs (root ++ s)).Pairwise (fun a b => ¬ a <+: b ∧ ¬ b <+: a))
    (hdots : ".." ∉ s)
    (hdotc : ∀ c ∈ rglobFiles fs (root ++ s), ".." ∉ c)
    (hfresh : ∀ e ∈ fs.entries, ¬ (root ++ d) <+: e.1)
    (hanc : ∀ q ∈ ancestorsOf (root ++ d), q ≠ root ++ d → fs.findNode q = some Node.dir) :
    ∃ fs', link_path fs (root ++ s) (root ++ d) true = .ok fs' ∧
      (∀ c ∈ rglobFiles fs (root ++ s),
        fs'.findNode ((root ++ d) ++ c) =
          some (.symlink (relativeTo ((root ++ s) ++ c) (((root ++ d) ++ c).dropLast)))) ∧
      (∀ c ∈ rglobFiles fs (root ++ s), ∀ root',
        resolveRel ((root' ++ d) ++ c.dropLast)
          (relativeTo ((root ++ s) ++ c) (((root ++ d) ++ c).dropLast)) =
          (root' ++ s) ++ c) ∧
      (∀ q, fs'.findNode q ≠ fs.findNode q →
        fs'.findNode q = some .dir ∨
          ∃ c ∈ rglobFiles fs (root ++ s), q = (root ++ d) ++ c) ∧
      (∀ t, fs'.findNode (root ++ d) ≠ some (.symlink t)) := by
  have hnone : ∀ q, (root ++ d) <+: q → fs.findNode q = none := by
    intro q hq
    apply findNode_eq_none_of_keys
    intro e he heq
    exact hfresh e he (heq ▸ hq)
  have h3 : ∀ c ∈ rglobFiles fs (root ++ s), fs.findNode ((root ++ d) ++ c) = none :=
    fun c _ => hnone _ ( List.prefix_append _ _)
  have h4 : ∀ c ∈ rglobFiles fs (root ++ s), ∀ q, q <+: (root ++ d) ++ c.dropLast →
      q ≠ [] → fs.findNode q = none ∨ fs.findNode q = some .dir := by
    intro c _ q hqpre hqne
    rcases List.prefix_or_prefix_of_prefix hqpre
        ( List.prefix_append (root ++ d) c.dropLast) with h | h
    · by_cases hqd : q = root ++ d
      · exact Or.inl (hnone q (hqd ▸ List.prefix_refl _))
      · exact Or.inr (hanc q ((mem_ancestorsOf _ _).mpr ⟨h, hqne⟩) hqd)
    · exact Or.inl (hnone q h)
  obtain ⟨fs', hfold, hsyms, hΔ⟩ :=
    link_rec_aux (rglobFiles fs (root ++ s)) fs (root ++ s) (root ++ d)
      (rglob_ne_nil fs (root ++ s)) hpf h3 h4
  refine ⟨fs', ?_, hsyms, ?_, ?_, ?_⟩
  · unfold link_path
    rw [if_pos rfl]
    exact hfold
  · intro c hc root'
    have hcnn : c ≠ [] := rglob_ne_nil fs (root ++ s) c hc
    have hdl : ((root ++ d) ++ c).dropLast = (root ++ d) ++ c.dropLast :=
      List.dropLast_append_of_ne_nil _ hcnn
    rw [hdl]
    have e1 : (root ++ s) ++ c = root ++ (s ++ c) := by rw [List.append_assoc]
    have e2 : (root ++ d) ++ c.dropLast = root ++ (d ++ c.dropLast) := by
      rw [List.append_assoc]
    have e3 : (root' ++ d) ++ c.dropLast = root' ++ (d ++ c.dropLast) := by
      rw [List.append_assoc]
    rw [e1, e2, e3, relativeTo_shift]
    have hdotsc : ".." ∉ s ++ c := by
      intro hm
      rcases List.mem_append.mp hm with hm | hm
      · exact hdots hm
      · exact hdotc c hc hm
    rw [resolveRel_relativeTo root' (s ++ c) (d ++ c.dropLast) hdotsc, List.append_assoc]
  · intro q hq
    obtain ⟨_, hcase⟩ := hΔ q hq
    exact hcase
  · intro t habs
    by_cases hch : fs'.findNode (root ++ d) = fs.findNode (root ++ d)
    · rw [hch, hnone _ ( List.prefix_refl _)] at habs
      cases habs
    · obtain ⟨_, hcase⟩ := hΔ _ hch
      rcases hcase with hdir | ⟨c, hc, hqeq⟩
      · rw [habs] at hdir
        simp at hdir
      · have hcne := rglob_ne_nil fs (root ++ s) c hc
        have hlen := congrArg List.length hqeq
        simp at hlen
        exact hcne hlen

/-! ### Concrete staging scenario from the spec (`01-scf/tmp` with
`a/b.txt` and `a/c.txt`, staged into `02-nscf/tmp`) -/

def fsScenario : FS := ⟨[
  (["01-scf"], .dir),
  (["01-scf", "tmp"], .dir),
  (["01-scf", "tmp", "a"], .dir),
  (["01-scf", "tmp", "a", "b.txt"], .file "B"),
  (["01-scf", "tmp", "a", "c.txt"], .file "C"),
  (["02-nscf"], .dir)]⟩

/-- C1 counterexample: the engine backend actually used for staging
(`EngineABC.link_file` delegating to `engines.localhost.link_file`)
*does* symlink the directory node itself when asked to stage
`01-scf/tmp` (a directory holding `a/b.txt` and `a/c.txt`) with
`recursive=True`: the result is one directory-level symlink at
`02-nscf/tmp` and no file-level symlink at `02-nscf/tmp/a/b.txt`. -/
theorem C1_counterexample :
    engine_link_file fsScenario ["01-scf", "tmp"] ["02-nscf", "tmp"] true true =
      .ok (FS.insert fsScenario ["02-nscf", "tmp"]
        (.symlink ["..", "01-scf", "tmp"])) ∧
    (FS.insert fsScenario ["02-nscf", "tmp"]
        (.symlink ["..", "01-scf", "tmp"])).findNode
      ["02-nscf", "tmp", "a", "b.txt"] = none := by
  exact ⟨rfl, rfl⟩

/-- Witness for C1: the amended theorem applied to the spec's concrete
scenario: both leaf files get file-level symlinks. -/
theorem C1_witness :
    ∃ fs', link_path fsScenario ["01-scf", "tmp"] ["02-nscf", "tmp"] true = .ok fs' ∧
      ∀ c ∈ rglobFiles fsScenario ["01-scf", "tmp"],
        fs'.findNode (["02-nscf", "tmp"] ++ c) =
          some (.symlink (relativeTo (["01-scf", "tmp"] ++ c)
            ((["02-nscf", "tmp"] ++ c).dropLast))) := by
  obtain ⟨fs', h1, h2, _, _, _⟩ :=
    C1_link_path_recursive fsScenario [] ["01-scf", "tmp"] ["02-nscf", "tmp"]
      (by decide) (by decide) (by decide) (by decide) (by decide)
  exact ⟨fs', by simpa using h1, by simpa using h2⟩

/-- C2 (code-bug evidence): `EngineABC._pre_run` serializes
`uid/inputs.json` *before* the working-directory reset, not after it as
specified.  On a fresh filesystem the dump itself raises
`FileNotFoundError` (the directory `01-scf` does not exist yet when
`open('01-scf/inputs.json', 'w')` runs), and when a stale directory
pre-exists at the uid the dump succeeds (fourth conjunct) but the
subsequent reset deletes the directory and the freshly written
`inputs.json` with it: `_pre_run` then completes with `01-scf` present
and `01-scf/inputs.json` absent. -/
theorem C2_dump_before_reset :
    (pre_run ⟨[]⟩ ⟨[]⟩ "scf" [] (some "J")).2.2 = .err .fileNotFound ⟨[]⟩ ∧
    (pre_run ⟨[]⟩ ⟨[(["01-scf"], .dir)]⟩ "scf" [] (some "J")).2.2 =
      .ok ⟨[(["01-scf"], .dir)]⟩ ∧
    FS.findNode ⟨[(["01-scf"], .dir)]⟩ ["01-scf", "inputs.json"] = none ∧
    write_to_file (⟨[(["01-scf"], .dir)]⟩ : FS) "J" ["01-scf", "inputs.json"] =
      .ok ⟨[(["01-scf", "inputs.json"], .file "J"), (["01-scf"], .dir)]⟩ := by
  exact ⟨by decide, by decide, by decide, by decide⟩

/-- C4 (code-bug evidence): when the wrapped function raises, the
exception does propagate unchanged and the working directory is not
deleted, but — contrary to the claim — `inputs.json` is *absent* at that
point: the dump preceded the reset, so the reset destroyed it (here a
stale `01-f` let the dump succeed at all).  `outputs.json` is absent as
claimed. -/
theorem C4_failure_leaves_no_inputs_json :
    run_task ⟨[]⟩ ⟨[(["01-f"], .dir)]⟩ ⟨"f", [], []⟩
        (fun _ fs => .raise "boom" fs) none [] (some "J") true =
      .funcExc "boom" ⟨["01-f"]⟩ ⟨[(["01-f"], .dir)]⟩ ∧
    FS.findNode ⟨[(["01-f"], .dir)]⟩ ["01-f", "inputs.json"] = none ∧
    FS.findNode ⟨[(["01-f"], .dir)]⟩ ["01-f", "outputs.json"] = none ∧
    is_dir ⟨[(["01-f"], .dir)]⟩ ["01-f"] = true := by
  exact ⟨by decide, by decide, by decide, by decide⟩

/-! ### Uid ledger (for the uid-assignment claim) -/

/-- The uid string `f"{n:02d}-{name}"`. -/
def uidStr (n : Nat) (name : String) : String :=
  String.mk (pad2Chars n) ++ "-" ++ name

theorem assign_uid_eq (eng : EngineSt) (name : String) :
    assign_uid eng name =
      (uidStr (eng.uids.length + 1) name,
        ⟨eng.uids ++ [uidStr (eng.uids.length + 1) name]⟩) := rfl

/-- The expected ledger for names assigned starting after `k` earlier
entries. -/
def uidFormula (k : Nat) : List String → List String
  | [] => []
  | n :: rest => uidStr (k + 1) n :: uidFormula (k + 1) rest

/-- One invocation of an `Engine.task`-wrapped callable. -/
structure Invocation where
  f : PyFunc
  behavior : List (String × PyVal) → FS → FuncResult
  metadata : Option String
  kwargs : List (String × TaskInput)
  inputsJson : Option String
  outputsModel : Bool

def Invocation.taskName (i : Invocation) : String := i.metadata.getD i.f.name

/-- A strictly sequential pipeline: each task runs on the engine and
filesystem state the previous one left, whatever its outcome. -/
def run_seq (eng : EngineSt) (fs : FS) : List Invocation → EngineSt × FS
  | [] => (eng, fs)
  | i :: rest =>
      let o := run_task eng fs i.f i.behavior i.metadata i.kwargs i.inputsJson i.outputsModel
      run_seq o.engine o.fsOf rest

theorem run_task_uids (eng : EngineSt) (fs : FS) (f : PyFunc)
    (behavior : List (String × PyVal) → FS → FuncResult) (metadata : Option String)
    (kwargs : List (String × TaskInput)) (ij : Option String) (om : Bool) :
    (run_task eng fs f behavior metadata kwargs ij om).engine =
      ⟨eng.uids ++ [uidStr (eng.uids.length + 1) (metadata.getD f.name)]⟩ := by
  unfold run_task
  cases hpre : pre_run eng fs (metadata.getD f.name) kwargs ij with
  | mk uid rest =>
    cases rest with
    | mk eng' out =>
      have heng : eng' = ⟨eng.uids ++ [uidStr (eng.uids.length + 1) (metadata.getD f.name)]⟩ := by
        have h21 := congrArg (fun t => t.2.1) hpre
        simp only at h21
        rw [← h21]
        rfl
      cases out with
      | err e fs1 =>
        dsimp only
        exact heng
      | ok fs1 =>
        dsimp only
        cases behavior (inject_ambient f uid
            (kwargs.map (fun kv => (kv.1, PyVal.arg kv.2)))) fs1 with
        | raise msg fs2 => exact heng
        | ok outsJson fs2 =>
          dsimp only
          by_cases hom : om = true
          · rw [if_pos hom]
            cases write_to_file fs2 outsJson [uid, "outputs.json"] with
            | err e fs3 => exact heng
            | ok fs3 => exact heng
          · rw [if_neg hom]
            exact heng

theorem uidStr_inj (a b : Nat) (x y : String) (h : uidStr a x = uidStr b y) :
    a = b ∧ x = y := by
  have hd := congrArg String.data h
  have hform : ∀ n nm, (uidStr n nm).data = pad2Chars n ++ '-' :: nm.data := by
    intro n nm
    unfold uidStr
    rw [String.data_append, String.data_append]
    have : ("-" : String).data = ['-'] := rfl
    rw [this, List.append_assoc]
    rfl
  rw [hform, hform] at hd
  obtain ⟨h1, h2⟩ :=
    dash_split _ _ _ _ (dash_not_mem_pad2Chars a) (dash_not_mem_pad2Chars b) hd
  exact ⟨pad2Chars_inj a b h1, String.ext h2⟩

theorem uidFormula_mem :
    ∀ (names : List String) (k : Nat) (x : String), x ∈ uidFormula k names →
      ∃ i nm, k < i ∧ x = uidStr i nm := by
  intro names
  induction names with
  | nil => intro k x h; cases h
  | cons n rest ih =>
    intro k x h
    rcases List.mem_cons.mp h with h | h
    · exact ⟨k + 1, n, by omega, h⟩
    · obtain ⟨i, nm, hi, hx⟩ := ih (k + 1) x h
      exact ⟨i, nm, by omega, hx⟩

theorem uidFormula_nodup : ∀ (names : List String) (k : Nat), (uidFormula k names).Nodup := by
  intro names
  induction names with
  | nil => intro k; exact List.nodup_nil
  | cons n rest ih =>
    intro k
    rw [uidFormula, List.nodup_cons]
    refine ⟨?_, ih (k + 1)⟩
    intro habs
    obtain ⟨i, nm, hi, hx⟩ := uidFormula_mem rest (k + 1) _ habs
    obtain ⟨h1, _⟩ := uidStr_inj _ _ _ _ hx
    omega

theorem run_seq_uids :
    ∀ (invs : List Invocation) (eng : EngineSt) (fs : FS),
      (run_seq eng fs invs).1.uids =
        eng.uids ++ uidFormula eng.uids.length (invs.map Invocation.taskName) := by
  intro invs
  induction invs with
  | nil => intro eng fs; simp [run_seq, uidFormula]
  | cons i rest ih =>
    intro eng fs
    show (run_seq (run_task eng fs i.f i.behavior i.metadata i.kwargs
        i.inputsJson i.outputsModel).engine _ rest).1.uids = _
    rw [ih, run_task_uids]
    show (eng.uids ++ [uidStr (eng.uids.length + 1) (i.metadata.getD i.f.name)]) ++
        uidFormula (eng.uids ++ [uidStr (eng.uids.length + 1) (i.metadata.getD i.f.name)]).length
          (rest.map Invocation.taskName) = _
    rw [List.length_append, List.append_assoc]
    simp only [List.length_singleton]
    rfl

/-- C3: for every invocation the engine appends exactly
`f"{len(ledger)+1:02d}-{name}"` to its uid ledger, whatever the task's
outcome (first conjunct); the name defaults to the wrapped function's
`__name__` when no `call_link_label` metadata is supplied (second
conjunct); and over any sequence of invocations from a fresh engine the
ledger is exactly the ordinal-prefixed name list, which never repeats a
uid (third and fourth conjuncts). -/
theorem C3_uid_assignment :
    (∀ (eng : EngineSt) (fs : FS) (f : PyFunc)
        (behavior : List (String × PyVal) → FS → FuncResult) (metadata : Option String)
        (kwargs : List (String × TaskInput)) (ij : Option String) (om : Bool),
      (run_task eng fs f behavior metadata kwargs ij om).engine.uids =
        eng.uids ++ [uidStr (eng.uids.length + 1) (metadata.getD f.name)]) ∧
    (∀ (eng : EngineSt) (fs : FS) (f : PyFunc)
        (behavior : List (String × PyVal) → FS → FuncResult)
        (kwargs : List (String × TaskInput)) (ij : Option String) (om : Bool),
      (run_task eng fs f behavior none kwargs ij om).engine.uids =
        eng.uids ++ [uidStr (eng.uids.length + 1) f.name]) ∧
    (∀ (invs : List Invocation) (fs : FS),
      (run_seq ⟨[]⟩ fs invs).1.uids = uidFormula 0 (invs.map Invocation.taskName)) ∧
    (∀ (invs : List Invocation) (fs : FS),
      (run_seq ⟨[]⟩ fs invs).1.uids.Nodup) := by
  refine ⟨?_, ?_, ?_, ?_⟩
  · intro eng fs f behavior metadata kwargs ij om
    rw [run_task_uids]
  · intro eng fs f behavior kwargs ij om
    rw [run_task_uids]
    rfl
  · intro invs fs
    rw [run_seq_uids]
    rfl
  · intro invs fs
    rw [run_seq_uids]
    show (uidFormula 0 _).Nodup
    exact uidFormula_nodup _ 0

theorem lookup_append_or :
    ∀ (l1 l2 : List (FPath × Node)) (k : FPath),
      (l1 ++ l2).lookup k =
        match l1.lookup k with
        | some v => some v
        | none => l2.lookup k := by
  intro l1 l2 k
  induction l1 with
  | nil => rfl
  | cons e l ih =>
    by_cases hk : k = e.1
    · have hb : (k == e.1) = true := by simpa using hk
      simp [List.lookup, hb]
    · have hb : (k == e.1) = false := by simpa using hk
      simp only [List.cons_append, List.lookup, hb]
      exact ih

/-- Looking up `dest ++ rest` in the subtree image `copytree` builds is
looking up `src ++ rest` in the original entries. -/
theorem lookup_subtree_map :
    ∀ (l : List (FPath × Node)) (src dest rest : FPath),
      (l.filterMap (fun e =>
        if src.isPrefixOf e.1 then some (dest ++ e.1.drop src.length, e.2)
        else none)).lookup (dest ++ rest) = l.lookup (src ++ rest) := by
  intro l src dest rest
  induction l with
  | nil => rfl
  | cons e l ih =>
    rw [List.filterMap_cons]
    by_cases hp : src.isPrefixOf e.1 = true
    · simp only [hp, if_true]
      have hiff : (dest ++ rest = dest ++ e.1.drop src.length) ↔ (src ++ rest = e.1) := by
        constructor
        · intro h
          have h2 : rest = e.1.drop src.length := List.append_cancel_left h
          obtain ⟨t, ht⟩ := List.isPrefixOf_iff_prefix.mp hp
          have h3 : t = e.1.drop src.length := by rw [← ht, List.drop_left]
          rw [h2, ← h3, ht]
        · intro h
          have h2 : e.1.drop src.length = rest := by rw [← h, List.drop_left]
          rw [h2]
      by_cases hk : src ++ rest = e.1
      · have hb1 : (dest ++ rest == dest ++ e.1.drop src.length) = true := by
          simpa using hiff.mpr hk
        have hb2 : (src ++ rest == e.1) = true := by simpa using hk
        simp [List.lookup, hb1, hb2]
      · have hb1 : (dest ++ rest == dest ++ e.1.drop src.length) = false := by
          simp
          exact fun h => hk (hiff.mp (by rw [h]))
        have hb2 : (src ++ rest == e.1) = false := by simpa using hk
        simp only [List.lookup, hb1, hb2]
        exact ih
    · simp only [hp, if_false]
      have hk : ¬ src ++ rest = e.1 := by
        intro habs
        apply hp
        rw [← habs]
        exact List.isPrefixOf_iff_prefix.mpr ⟨rest, rfl⟩
      have hb : (src ++ rest == e.1) = false := by simpa using hk
      simp only [List.lookup, hb]
      exact ih

/-- `shutil.copytree(src, dest)` onto an absent destination whose
subtree is empty replicates the whole source subtree at `dest` in one
capability call. -/
theorem copytree_spec (fs : FS) (src dest : FPath)
    (hd : file_exists fs dest = false)
    (hs : is_dir fs src)
    (hp : dest.dropLast = [] ∨ is_dir fs dest.dropLast)
    (hsub : ∀ q, dest <+: q → fs.findNode q = none) :
    ∃ fs2, copytree fs src dest = .ok fs2 ∧
      ∀ rest, fs2.findNode (dest ++ rest) = fs.findNode (src ++ rest) := by
  have hct : copytree fs src dest = .ok ⟨(fs.entries.filterMap (fun e =>
      if src.isPrefixOf e.1 then some (dest ++ e.1.drop src.length, e.2) else none))
      ++ fs.entries⟩ := by
    unfold copytree
    rw [if_neg (by rw [hd]; exact fun h => Bool.noConfusion h)]
    rw [if_neg (by simp [hs])]
    rw [if_neg (fun h => h hp)]
  refine ⟨_, hct, ?_⟩
  intro rest
  show List.lookup (dest ++ rest) _ = _
  rw [lookup_append_or, lookup_subtree_map]
  cases hlk : fs.entries.lookup (src ++ rest) with
  | some v =>
    show some v = fs.findNode (src ++ rest)
    unfold FS.findNode
    rw [hlk]
  | none =>
    show fs.entries.lookup (dest ++ rest) = fs.findNode (src ++ rest)
    have h1 := hsub (dest ++ rest) ⟨rest, rfl⟩
    unfold FS.findNode at h1 ⊢
    rw [h1, hlk]

/-- C5 (amended): with `overwrite=False` onto an existing destination,
link staging fails with `FileExistsError` before any mutation (the
errored state is the original one), and so does directory copy
(`copytree` checks the destination first); but single-file copy is the
exception: `shutil.copy` silently replaces the existing destination file
in full rather than failing.  With `overwrite=True`, for the link and
the copy capability alike, the destination is deleted and then recreated
in single capability calls: after the delete the destination is absent,
and the recreate that follows either fails or installs the complete
node in one call — the full symlink for a link, the full file for a
single-file copy, the full replicated subtree for a directory copy — so
no intermediate state holds a partially written destination. -/
theorem C5_overwrite_semantics :
    (∀ (fs : FS) (src dest : FPath) (r : Bool), file_exists fs dest →
      engine_link_file fs src dest r false = .err .fileExists fs) ∧
    (∀ (fs : FS) (src dest : FPath), file_exists fs dest → is_dir fs src →
      engine_copy_file fs src dest false = .err .fileExists fs) ∧
    (∀ (fs : FS) (src dest : FPath) (c : String),
      fs.findNode src = some (.file c) → file_exists fs dest → ¬ is_dir fs dest →
      (dest.dropLast = [] ∨ is_dir fs dest.dropLast) →
      engine_copy_file fs src dest false =
        .ok ((fs.eraseExact dest).insert dest (.file c))) ∧
    (∀ (fs : FS) (src dest : FPath) (r : Bool), file_exists fs dest →
      ∃ fs1, delete_file fs dest = .ok fs1 ∧ file_exists fs1 dest = false ∧
        engine_link_file fs src dest r true = localhost_link_file fs1 src dest r ∧
        (∀ fs2, localhost_link_file fs1 src dest r = .ok fs2 →
          fs2.findNode dest = some (.symlink (relativeTo src dest.dropLast)))) ∧
    (∀ (fs : FS) (src dest : FPath), file_exists fs dest →
      ∃ fs1, delete_file fs dest = .ok fs1 ∧ file_exists fs1 dest = false ∧
        engine_copy_file fs src dest true = localhost_copy_file fs1 src dest ∧
        (∀ c, fs1.findNode src = some (.file c) →
          (dest.dropLast = [] ∨ is_dir fs1 dest.dropLast) →
          localhost_copy_file fs1 src dest =
            .ok ((fs1.eraseExact dest).insert dest (.file c))) ∧
        (is_dir fs1 src →
          (dest.dropLast = [] ∨ is_dir fs1 dest.dropLast) →
          (∀ q, dest <+: q → fs1.findNode q = none) →
          ∃ fs2, localhost_copy_file fs1 src dest = .ok fs2 ∧
            ∀ rest, fs2.findNode (dest ++ rest) = fs1.findNode (src ++ rest))) := by
  refine ⟨?_, ?_, ?_, ?_, ?_⟩
  · intro fs src dest r hdest
    unfold engine_link_file
    rw [if_neg (by simp)]
    show localhost_link_file fs src dest r = .err .fileExists fs
    unfold localhost_link_file symlink_to
    by_cases hsrc : is_dir fs src <;> simp [hsrc, hdest]
  · intro fs src dest hdest hsrc
    unfold engine_copy_file
    rw [if_neg (by simp)]
    show localhost_copy_file fs src dest = .err .fileExists fs
    unfold localhost_copy_file copytree
    simp [hsrc, hdest]
  · intro fs src dest c hsrc hdest hdestdir hparent
    unfold engine_copy_file
    rw [if_neg (by simp)]
    show localhost_copy_file fs src dest = _
    have hsrcdir : is_dir fs src = false := by
      unfold is_dir
      simp [hsrc]
    unfold localhost_copy_file
    rw [hsrcdir]
    show shutil_copy fs src dest = _
    unfold shutil_copy
    rw [hsrc]
    show (if is_dir fs dest then _ else write_to_file fs c dest) = _
    rw [if_neg hdestdir]
    unfold write_to_file
    rw [if_neg hdestdir, if_pos hparent]
  · intro fs src dest r hdest
    obtain ⟨fs1, hdel, habs⟩ := delete_file_of_present fs dest hdest
    refine ⟨fs1, hdel, habs, ?_, ?_⟩
    · unfold engine_link_file
      rw [if_pos ⟨rfl, hdest⟩, hdel]
      rfl
    · intro fs2 hlk
      unfold localhost_link_file symlink_to at hlk
      have hins : fs1.insert dest (.symlink (relativeTo src dest.dropLast)) = fs2 := by
        by_cases hsrc : is_dir fs1 src <;> simp [hsrc, habs] at hlk <;> exact hlk
      rw [← hins, findNode_insert, if_pos rfl]
  · intro fs src dest hdest
    obtain ⟨fs1, hdel, habs⟩ := delete_file_of_present fs dest hdest
    have hdnone : fs1.findNode dest = none := by
      unfold file_exists at habs
      simpa using habs
    refine ⟨fs1, hdel, habs, ?_, ?_, ?_⟩
    · unfold engine_copy_file
      rw [if_pos ⟨rfl, hdest⟩, hdel]
      rfl
    · intro c hsrc hp
      have hsd : is_dir fs1 src = false := by
        unfold is_dir
        simp [hsrc]
      have hdd : is_dir fs1 dest = false := by
        unfold is_dir
        simp [hdnone]
      unfold localhost_copy_file
      rw [hsd]
      show shutil_copy fs1 src dest = _
      unfold shutil_copy
      rw [hsrc]
      show (if is_dir fs1 dest then _ else write_to_file fs1 c dest) = _
      rw [hdd]
      show write_to_file fs1 c dest = _
      unfold write_to_file
      rw [if_neg (by rw [hdd]; exact fun h => Bool.noConfusion h), if_pos hp]
    · intro hsd hp hsub
      obtain ⟨fs2, hcs, hrepl⟩ := copytree_spec fs1 src dest habs hsd hp hsub
      refine ⟨fs2, ?_, hrepl⟩
      unfold localhost_copy_file
      rw [if_pos hsd]
      exact hcs

/-- C5 counterexample: staging a single file with `overwrite=False` onto
an existing destination does not fail — `shutil.copy` silently replaces
`d.txt`'s old content with the source's. -/
theorem C5_counterexample :
    file_exists (⟨[(["s.txt"], .file "new"), (["d.txt"], .file "old")]⟩ : FS)
      ["d.txt"] = true ∧
    engine_copy_file ⟨[(["s.txt"], .file "new"), (["d.txt"], .file "old")]⟩
        ["s.txt"] ["d.txt"] false =
      .ok ⟨[(["d.txt"], .file "new"), (["s.txt"], .file "new")]⟩ := by
  exact ⟨by decide, by decide⟩

/-- Witness for C5 at concrete inputs: a link with `overwrite=False`
onto the existing `02-nscf` fails with the state untouched; with
`overwrite=True` the destination is deleted first, and the directory
copy that follows replicates the source subtree in one call. -/
theorem C5_witness :
    engine_link_file fsScenario ["01-scf", "tmp", "a", "b.txt"] ["02-nscf"] false false =
      .err .fileExists fsScenario ∧
    (∃ fs1, delete_file fsScenario ["02-nscf"] = .ok fs1 ∧
      file_exists fs1 ["02-nscf"] = false ∧
      engine_link_file fsScenario ["01-scf", "tmp", "a", "b.txt"] ["02-nscf"] false true =
        localhost_link_file fs1 ["01-scf", "tmp", "a", "b.txt"] ["02-nscf"] false) ∧
    (∃ fs1, delete_file fsScenario ["02-nscf"] = .ok fs1 ∧
      file_exists fs1 ["02-nscf"] = false ∧
      engine_copy_file fsScenario ["01-scf", "tmp"] ["02-nscf"] true =
        localhost_copy_file fs1 ["01-scf", "tmp"] ["02-nscf"] ∧
      ∃ fs2, localhost_copy_file fs1 ["01-scf", "tmp"] ["02-nscf"] = .ok fs2 ∧
        fs2.findNode ["02-nscf", "a", "b.txt"] = some (.file "B")) := by
  refine ⟨?_, ?_, ?_⟩
  · exact C5_overwrite_semantics.1 fsScenario _ _ false (by decide)
  · obtain ⟨fs1, h1, h2, h3, _⟩ :=
      C5_overwrite_semantics.2.2.2.1 fsScenario ["01-scf", "tmp", "a", "b.txt"]
        ["02-nscf"] false (by decide)
    exact ⟨fs1, h1, h2, h3⟩
  · obtain ⟨fs1, h1, h2, h3, _, h5⟩ :=
      C5_overwrite_semantics.2.2.2.2 fsScenario ["01-scf", "tmp"] ["02-nscf"] (by decide)
    have hfs1 : fs1 = ⟨[
        (["01-scf"], .dir),
        (["01-scf", "tmp"], .dir),
        (["01-scf", "tmp", "a"], .dir),
        (["01-scf", "tmp", "a", "b.txt"], .file "B"),
        (["01-scf", "tmp", "a", "c.txt"], .file "C")]⟩ := by
      have hconc : delete_file fsScenario ["02-nscf"] = .ok ⟨[
          (["01-scf"], .dir),
          (["01-scf", "tmp"], .dir),
          (["01-scf", "tmp", "a"], .dir),
          (["01-scf", "tmp", "a", "b.txt"], .file "B"),
          (["01-scf", "tmp", "a", "c.txt"], .file "C")]⟩ := by decide
      rw [hconc] at h1
      injection h1 with h
      exact h.symm
    subst hfs1
    have hsubtree : ∀ q, ["02-nscf"] <+: q →
        FS.findNode ⟨[
          (["01-scf"], .dir),
          (["01-scf", "tmp"], .dir),
          (["01-scf", "tmp", "a"], .dir),
          (["01-scf", "tmp", "a", "b.txt"], .file "B"),
          (["01-scf", "tmp", "a", "c.txt"], .file "C")]⟩ q = none := by
      intro q hq
      obtain ⟨t, rfl⟩ := hq
      apply findNode_eq_none_of_keys
      intro e he heq
      simp at he
      rcases he with he | he | he | he | he <;>
        · rw [he] at heq
          simp only at heq
          injection heq with hh ht
          exact absurd hh (by decide)
    obtain ⟨fs2, hc1, hc2⟩ := h5 (by decide) (by decide) hsubtree
    refine ⟨_, h1, h2, h3, fs2, hc1, ?_⟩
    have h6 := hc2 ["a", "b.txt"]
    simp only [List.cons_append, List.nil_append] at h6
    rw [h6]
    decide

/-- C9: with `overwrite=True` and an existing destination, both engine
staging wrappers delete the destination before the backend operation
ever touches the source; when the subsequent copy then fails because the
source is missing, the error state still lacks the old destination — it
is not restored. -/
theorem C9_delete_before_source_access :
    ∀ (fs : FS) (src dest : FPath) (r : Bool),
      file_exists fs dest → ¬ file_exists fs src →
      ∃ fs1, delete_file fs dest = .ok fs1 ∧ file_exists fs1 dest = false ∧
        engine_copy_file fs src dest true = .err .fileNotFound fs1 ∧
        engine_link_file fs src dest r true = localhost_link_file fs1 src dest r := by
  intro fs src dest r hdest hsrc
  obtain ⟨fs1, hdel, habs⟩ := delete_file_of_present fs dest hdest
  have hsrc1 : fs1.findNode src = none := by
    have hn : fs.findNode src = none := by
      unfold file_exists at hsrc
      simpa using hsrc
    rcases delete_file_find fs dest fs1 hdel src with h | h
    · rw [h, hn]
    · exact h
  refine ⟨fs1, hdel, habs, ?_, ?_⟩
  · unfold engine_copy_file
    rw [if_pos ⟨rfl, hdest⟩, hdel]
    show localhost_copy_file fs1 src dest = _
    unfold localhost_copy_file
    rw [show is_dir fs1 src = false by unfold is_dir; simp [hsrc1]]
    show shutil_copy fs1 src dest = _
    unfold shutil_copy
    rw [hsrc1]
  · unfold engine_link_file
    rw [if_pos ⟨rfl, hdest⟩, hdel]
    rfl

/-- Witness for C9 at concrete inputs: the pre-existing `d.txt` is
deleted, the copy then fails on the missing source, and `d.txt` is gone
in the error state. -/
theorem C9_witness :
    ∃ fs1, delete_file (⟨[(["d.txt"], .file "old")]⟩ : FS) ["d.txt"] = .ok fs1 ∧
      file_exists fs1 ["d.txt"] = false ∧
      engine_copy_file (⟨[(["d.txt"], .file "old")]⟩ : FS) ["s.txt"] ["d.txt"] true =
        .err .fileNotFound fs1 := by
  obtain ⟨fs1, h1, h2, h3, _⟩ :=
    C9_delete_before_source_access ⟨[(["d.txt"], .file "old")]⟩ ["s.txt"] ["d.txt"]
      false (by decide) (by decide)
  exact ⟨fs1, h1, h2, h3⟩

/-! ### Ambient injection (for the injection claims) -/

theorem mem_upsert_self (kwargs : List (String × PyVal)) (k : String) (v : PyVal) :
    (k, v) ∈ upsert kwargs k v := by
  unfold upsert
  exact List.mem_append_right _ (by simp)

theorem mem_upsert_other (kwargs : List (String × PyVal)) (k : String) (v : PyVal)
    (k' : String) (v' : PyVal) (h : k' ≠ k) :
    ((k', v') ∈ upsert kwargs k v) ↔ (k', v') ∈ kwargs := by
  unfold upsert
  rw [List.mem_append]
  constructor
  · rintro (hm | hm)
    · exact (List.mem_filter.mp hm).1
    · simp at hm
      exact absurd hm.1 h
  · intro hm
    left
    rw [List.mem_filter]
    exact ⟨hm, by simpa using h⟩

theorem not_mem_upsert_other (kwargs : List (String × PyVal)) (k : String) (v : PyVal)
    (k' : String) (h : k' ≠ k) (hnm : ∀ w, (k', w) ∉ kwargs) :
    ∀ w, (k', w) ∉ upsert kwargs k v := by
  intro w hw
  exact hnm w ((mem_upsert_other kwargs k v k' w h).mp hw)

/-- C7 (amended): `uid` and the command table are injected iff their
names occur in the wrapped function's `__code__.co_varnames` — which
lists the declared parameters *followed by all other local variables*.
A declared parameter therefore always triggers injection, the caller
never passes these names, and a function whose co_varnames avoid them
receives neither; but a mere local variable named `uid` or `commands`
triggers injection too, so the check is not equivalent to inspecting the
parameter list (see the counterexample). -/
theorem C7_injection_by_covarnames :
    ∀ (f : PyFunc) (uid : String) (kwargs : List (String × PyVal)),
      (∀ v : PyVal, ("uid", v) ∉ kwargs) →
      (∀ v : PyVal, ("commands", v) ∉ kwargs) →
      ((("uid", PyVal.uidVal uid) ∈ inject_ambient f uid kwargs ↔
          "uid" ∈ co_varnames f) ∧
       (("commands", PyVal.commandsVal) ∈ inject_ambient f uid kwargs ↔
          "commands" ∈ co_varnames f) ∧
       ("uid" ∈ f.params → ("uid", PyVal.uidVal uid) ∈ inject_ambient f uid kwargs) ∧
       ("commands" ∈ f.params →
          ("commands", PyVal.commandsVal) ∈ inject_ambient f uid kwargs) ∧
       ("uid" ∉ co_varnames f → ∀ v, ("uid", v) ∉ inject_ambient f uid kwargs) ∧
       ("commands" ∉ co_varnames f →
          ∀ v, ("commands", v) ∉ inject_ambient f uid kwargs)) := by
  intro f uid kwargs hku hkc
  have hucne : ("uid" : String) ≠ "commands" := by decide
  have hulne : ("uid" : String) ≠ "link_file" := by decide
  have hclne : ("commands" : String) ≠ "link_file" := by decide
  have hcune : ("commands" : String) ≠ "uid" := by decide
  unfold inject_ambient
  have huid : ∀ v : PyVal,
      (("uid", v) ∈ (if "uid" ∈ co_varnames f then
          upsert kwargs "uid" (.uidVal uid) else kwargs)) ↔
        (("uid" ∈ co_varnames f ∧ v = .uidVal uid)) := by
    intro v
    by_cases hm : "uid" ∈ co_varnames f
    · rw [if_pos hm]
      constructor
      · intro hmem
        refine ⟨hm, ?_⟩
        unfold upsert at hmem
        rcases List.mem_append.mp hmem with h | h
        · exact absurd (List.mem_filter.mp h).1 (hku v)
        · simpa using h
      · rintro ⟨-, rfl⟩
        exact mem_upsert_self kwargs "uid" (.uidVal uid)
    · rw [if_neg hm]
      constructor
      · intro hmem
        exact absurd hmem (hku v)
      · rintro ⟨habs, -⟩
        exact absurd habs hm
  refine ⟨?_, ?_, ?_, ?_, ?_, ?_⟩
  · constructor
    · intro hmem
      by_cases hl : "link_file" ∈ co_varnames f <;>
        [rw [if_pos hl] at hmem; rw [if_neg hl] at hmem] <;>
      [rw [mem_upsert_other _ _ _ _ _ hulne] at hmem; skip] <;>
      · by_cases hc : "commands" ∈ co_varnames f <;>
          [rw [if_pos hc] at hmem; rw [if_neg hc] at hmem] <;>
        [rw [mem_upsert_other _ _ _ _ _ hucne] at hmem; skip] <;>
        exact ((huid _).mp hmem).1
    · intro hm
      by_cases hl : "link_file" ∈ co_varnames f <;>
        [rw [if_pos hl]; rw [if_neg hl]] <;>
      [rw [mem_upsert_other _ _ _ _ _ hulne]; skip] <;>
      · by_cases hc : "commands" ∈ co_varnames f <;>
          [rw [if_pos hc]; rw [if_neg hc]] <;>
        [rw [mem_upsert_other _ _ _ _ _ hucne]; skip] <;>
        exact (huid _).mpr ⟨hm, rfl⟩
  · constructor
    · intro hmem
      by_cases hl : "link_file" ∈ co_varnames f <;>
        [rw [if_pos hl] at hmem; rw [if_neg hl] at hmem] <;>
      [rw [mem_upsert_other _ _ _ _ _ hclne] at hmem; skip] <;>
      · by_cases hc : "commands" ∈ co_varnames f
        · exact hc
        · rw [if_neg hc] at hmem
          exfalso
          by_cases hu : "uid" ∈ co_varnames f <;>
            [rw [if_pos hu] at hmem; rw [if_neg hu] at hmem] <;>
          [rw [mem_upsert_other _ _ _ _ _ hcune] at hmem; skip] <;>
          exact hkc _ hmem
    · intro hc
      by_cases hl : "link_file" ∈ co_varnames f <;>
        [rw [if_pos hl]; rw [if_neg hl]] <;>
      [rw [mem_upsert_other _ _ _ _ _ hclne]; skip] <;>
      · rw [if_pos hc]
        exact mem_upsert_self _ "commands" .commandsVal
  · intro hp
    have hm : "uid" ∈ co_varnames f := by
      unfold co_varnames
      exact List.mem_append_left _ hp
    by_cases hl : "link_file" ∈ co_varnames f <;>
      [rw [if_pos hl]; rw [if_neg hl]] <;>
    [rw [mem_upsert_other _ _ _ _ _ hulne]; skip] <;>
    · by_cases hc : "commands" ∈ co_varnames f <;>
        [rw [if_pos hc]; rw [if_neg hc]] <;>
      [rw [mem_upsert_other _ _ _ _ _ hucne]; skip] <;>
      exact (huid _).mpr ⟨hm, rfl⟩
  · intro hp
    have hc : "commands" ∈ co_varnames f := by
      unfold co_varnames
      exact List.mem_append_left _ hp
    by_cases hl : "link_file" ∈ co_varnames f <;>
      [rw [if_pos hl]; rw [if_neg hl]] <;>
    [rw [mem_upsert_other _ _ _ _ _ hclne]; skip] <;>
    · rw [if_pos hc]
      exact mem_upsert_self _ "commands" .commandsVal
  · intro hm v
    intro hmem
    by_cases hl : "link_file" ∈ co_varnames f <;>
      [rw [if_pos hl] at hmem; rw [if_neg hl] at hmem] <;>
    [rw [mem_upsert_other _ _ _ _ _ hulne] at hmem; skip] <;>
    · by_cases hc : "commands" ∈ co_varnames f <;>
        [rw [if_pos hc] at hmem; rw [if_neg hc] at hmem] <;>
      [rw [mem_upsert_other _ _ _ _ _ hucne] at hmem; skip] <;>
      exact hm ((huid _).mp hmem).1
  · intro hm v
    intro hmem
    by_cases hl : "link_file" ∈ co_varnames f <;>
      [rw [if_pos hl] at hmem; rw [if_neg hl] at hmem] <;>
    [rw [mem_upsert_other _ _ _ _ _ hclne] at hmem; skip] <;>
    · rw [if_neg hm] at hmem
      by_cases hu : "uid" ∈ co_varnames f <;>
        [rw [if_pos hu] at hmem; rw [if_neg hu] at hmem] <;>
      [rw [mem_upsert_other _ _ _ _ _ hcune] at hmem; skip] <;>
      exact hkc _ hmem

/-- C7 counterexample: a function whose parameter list is `(x)` but
whose body uses a local variable named `uid` still receives the `uid`
injection — the code inspects `co_varnames` (parameters *and* locals),
not the parameter list, so "injected iff the parameter list names them"
fails. -/
theorem C7_counterexample :
    ("uid", PyVal.uidVal "01-g") ∈
      inject_ambient ⟨"g", ["x"], ["uid"]⟩ "01-g" [] ∧
    "uid" ∉ (PyFunc.mk "g" ["x"] ["uid"]).params := by
  exact ⟨by decide, by decide⟩

/-- Witness for C7 at concrete inputs: a function declaring both
ambient parameters receives both; one declaring neither receives
neither. -/
theorem C7_witness :
    (("uid", PyVal.uidVal "01-pw") ∈
        inject_ambient ⟨"pw", ["uid", "commands"], []⟩ "01-pw" [] ∧
      ("commands", PyVal.commandsVal) ∈
        inject_ambient ⟨"pw", ["uid", "commands"], []⟩ "01-pw" []) ∧
    (∀ v, ("uid", v) ∉ inject_ambient ⟨"pure", ["x"], ["y"]⟩ "01-pure" []) := by
  constructor
  · obtain ⟨_, _, h3, h4, _, _⟩ :=
      C7_injection_by_covarnames ⟨"pw", ["uid", "commands"], []⟩ "01-pw" []
        (by simp) (by simp)
    exact ⟨h3 (by decide), h4 (by decide)⟩
  · obtain ⟨_, _, _, _, h5, _⟩ :=
      C7_injection_by_covarnames ⟨"pure", ["x"], ["y"]⟩ "01-pure" []
        (by simp) (by simp)
    exact h5 (by decide)

/-- C10: the engine injects its bound `link_file` capability as the
`link_file` keyword argument exactly when that name occurs in the
wrapped function's code object (`co_varnames`) — a third ambient
injection beyond `uid` and `commands`. -/
theorem C10_link_file_injection :
    ∀ (f : PyFunc) (uid : String) (kwargs : List (String × PyVal)),
      (∀ v : PyVal, ("link_file", v) ∉ kwargs) →
      ((("link_file", PyVal.linkFileCap) ∈ inject_ambient f uid kwargs) ↔
        "link_file" ∈ co_varnames f) := by
  intro f uid kwargs hkl
  have hlune : ("link_file" : String) ≠ "uid" := by decide
  have hlcne : ("link_file" : String) ≠ "commands" := by decide
  have hmid : ∀ v : PyVal, ("link_file", v) ∉
      (if "commands" ∈ co_varnames f then
        upsert (if "uid" ∈ co_varnames f then
            upsert kwargs "uid" (.uidVal uid) else kwargs) "commands" .commandsVal
      else (if "uid" ∈ co_varnames f then
        upsert kwargs "uid" (.uidVal uid) else kwargs)) := by
    intro v
    by_cases hc : "commands" ∈ co_varnames f <;>
      [rw [if_pos hc]; rw [if_neg hc]] <;>
    [rw [mem_upsert_other _ _ _ _ _ hlcne]; skip] <;>
    · by_cases hu : "uid" ∈ co_varnames f <;>
        [rw [if_pos hu]; rw [if_neg hu]] <;>
      [rw [mem_upsert_other _ _ _ _ _ hlune]; skip] <;>
      exact hkl v
  unfold inject_ambient
  constructor
  · intro hmem
    by_cases hl : "link_file" ∈ co_varnames f
    · exact hl
    · rw [if_neg hl] at hmem
      exact absurd hmem (hmid _)
  · intro hl
    rw [if_pos hl]
    exact mem_upsert_self _ "link_file" .linkFileCap

/-- Witness for C10: `_run_pw_with_ase` declares `link_file` and
receives the capability; a function not naming it does not. -/
theorem C10_witness :
    ("link_file", PyVal.linkFileCap) ∈
      inject_ambient ⟨"_run_pw_with_ase", ["uid", "commands", "link_file"], []⟩
        "01-pw-scf" [] ∧
    ¬ ("link_file", PyVal.linkFileCap) ∈
      inject_ambient ⟨"plain", ["x"], []⟩ "02-plain" [] := by
  constructor
  · exact (C10_link_file_injection ⟨"_run_pw_with_ase", ["uid", "commands", "link_file"], []⟩
      "01-pw-scf" [] (by simp)).mpr (by decide)
  · intro habs
    exact absurd ((C10_link_file_injection ⟨"plain", ["x"], []⟩ "02-plain" []
      (by simp)).mp habs) (by decide)

/-! ### Round trip of the output dump -/

theorem lookup_dump_none :
    ∀ (m : PModel) (k : String), k ∉ m.map Prod.fst →
      (model_dump_exclude_none m).lookup k = none := by
  intro m
  induction m with
  | nil => intro k _; rfl
  | cons kv rest ih =>
    intro k hk
    have hk1 : k ≠ kv.1 := by
      intro habs
      exact hk (by simp [habs])
    have hk2 : k ∉ rest.map Prod.fst := by
      intro habs
      exact hk (by simp [habs])
    unfold model_dump_exclude_none
    cases hv : kv.2 with
    | none =>
      rw [List.filterMap_cons, hv]
      exact ih k hk2
    | some c =>
      rw [List.filterMap_cons, hv]
      show List.lookup k ((kv.1, c) :: _) = none
      have hbeq : (k == kv.1) = false := by simpa using hk1
      simp only [List.lookup, hbeq]
      exact ih k hk2

/-- C8: dumping a validated output mapping with null-valued fields
omitted (`model_dump_json(..., exclude_none=True)`, as `EngineABC._dump`
does for `uid/outputs.json`) and loading the result back through the
same output schema restores exactly the original mapping — the omitted
null fields come back as nulls and every other field keeps its value. -/
theorem C8_round_trip :
    ∀ (m : PModel) (schema : List String),
      m.map Prod.fst = schema → schema.Nodup →
      model_validate_json schema (model_dump_exclude_none m) = m := by
  intro m
  induction m with
  | nil =>
    intro schema hkeys _
    rw [← hkeys]
    rfl
  | cons kv rest ih =>
    intro schema hkeys hnodup
    obtain ⟨k, v⟩ := kv
    rw [← hkeys] at hnodup ⊢
    simp only [List.map_cons] at hnodup ⊢
    rw [List.nodup_cons] at hnodup
    obtain ⟨hknotin, hnodup'⟩ := hnodup
    unfold model_validate_json
    rw [List.map_cons]
    congr 1
    · show (k, (model_dump_exclude_none ((k, v) :: rest)).lookup k) = (k, v)
      cases v with
      | none =>
        have hred : model_dump_exclude_none ((k, (none : Option String)) :: rest) =
            model_dump_exclude_none rest := rfl
        rw [hred, lookup_dump_none rest k hknotin]
      | some c =>
        have hred : model_dump_exclude_none ((k, some c) :: rest) =
            (k, c) :: model_dump_exclude_none rest := rfl
        rw [hred]
        simp [List.lookup]
    · have hpoint : ∀ k' ∈ rest.map Prod.fst,
          (model_dump_exclude_none ((k, v) :: rest)).lookup k' =
            (model_dump_exclude_none rest).lookup k' := by
        intro k' hk'
        have hne : k' ≠ k := fun habs => hknotin (habs ▸ hk')
        cases v with
        | none => rfl
        | some c =>
          have hred : model_dump_exclude_none ((k, some c) :: rest) =
              (k, c) :: model_dump_exclude_none rest := rfl
          rw [hred]
          have hbeq : (k' == k) = false := by simpa using hne
          simp only [List.lookup, hbeq]
      have hmap : (rest.map Prod.fst).map
            (fun k' => (k', (model_dump_exclude_none ((k, v) :: rest)).lookup k')) =
          (rest.map Prod.fst).map
            (fun k' => (k', (model_dump_exclude_none rest).lookup k')) := by
        apply List.map_congr_left
        intro k' hk'
        rw [hpoint k' hk']
      rw [hmap]
      exact ih (rest.map Prod.fst) rfl hnodup'

/-- Witness for C8: a concrete outputs mapping with one null field
round-trips through dump and load. -/
theorem C8_witness :
    model_validate_json ["total_energy", "band_structure"]
      (model_dump_exclude_none
        [("total_energy", some "-1.0"), ("band_structure", none)]) =
      [("total_energy", some "-1.0"), ("band_structure", none)] :=
  C8_round_trip [("total_energy", some "-1.0"), ("band_structure", none)]
    ["total_energy", "band_structure"] (by decide) (by decide)

end KoopmansMWE
